import Mathlib

/-!
Verification development for the EasyParts download manager
(`src/EasyParts.py`).  The Python source is shallowly embedded below:

* `Status`, `Item` model the `DownloadItem` dataclass (statuses are the
  string constants of the source, turned into a closed enumeration;
  byte counts are `Nat`, the optional total size is `Option Nat`).
* `overallFraction` models `MainWindow._update_overall` (the progress
  aggregator): the real-valued ratio the source computes with float
  division is modelled in `ℚ`.
* `allTerminalQuirk` / `onFinishedTriggers` model the guard in
  `MainWindow.on_finished` that decides whether `extract_all` runs.
* `Sched` and the operations on it model the scheduler state of
  `MainWindow` (`self.items`, `self.workers`, `self.max_concurrency`).
  Python mutates shared `DownloadItem` objects through references held
  both by the display list and by workers, so the embedding uses an
  explicit object heap: `objs` is the list of all items ever created
  (its position is the object's identity), `display` is `self.items`
  as a list of object ids, and `workers` is the dict
  `self.workers : index ↦ worker`, each worker holding (the id of) the
  item object it was created for.
* `run` models `DownloadWorker.run`: the remote file is a list of
  bytes, HTTP is modelled by a `Server` record, and the cooperative
  pause/cancel flags are modelled by a list of per-chunk-iteration
  `Ctrl` observations.
-/

/-- The `DownloadItem.status` strings of the source
("Queued", "Downloading", "Paused", "Done", "Error", "Canceled"). -/
inductive Status where
  | Queued
  | Downloading
  | Paused
  | Done
  | Error
  | Canceled
deriving DecidableEq, Repr

/-- Statuses that are terminal for a batch: `("Done", "Error", "Canceled")`
as used in `on_finished` and `clear_finished`. -/
def Status.terminal : Status → Bool
  | .Done => true
  | .Error => true
  | .Canceled => true
  | _ => false

/-- Statuses eligible for admission in `_pump_queue`:
`("Queued", "Paused", "Error", "Canceled")`. -/
def Status.eligible : Status → Bool
  | .Queued => true
  | .Paused => true
  | .Error => true
  | .Canceled => true
  | _ => false

/-- The scheduler-relevant fields of the `DownloadItem` dataclass:
`index` (display order), `status`, `size : Optional[int]`,
`downloaded : int`.  The url/dest/filename fields play no role in the
claims and are omitted. -/
structure Item where
  index : Nat
  status : Status
  size : Option Nat
  downloaded : Nat
deriving DecidableEq, Repr

instance : Inhabited Item := ⟨⟨0, .Queued, none, 0⟩⟩

/-- Number of items with status `"Done"`, as in
`sum(1 for it in self.items if it.status == "Done")`. -/
def countDone (items : List Item) : Nat :=
  items.countP (fun it => decide (it.status = Status.Done))

/-- The overall completion fraction computed by
`MainWindow._update_overall` (lines 645-656):
`total = sum(it.size or 0 ...)`,
`done = sum(min(it.downloaded, it.size or it.downloaded) ...)`;
if `total > 0` the fraction is `done / total` (float division modelled
exactly in `ℚ`), else if the item list is non-empty it is
`finished / len(items)` where `finished` counts `"Done"` items, else
the progress value stays `0`. -/
def overallFraction (items : List Item) : ℚ :=
  let total : Nat := (items.map (fun it => it.size.getD 0)).sum
  let done : Nat := (items.map (fun it => min it.downloaded (it.size.getD it.downloaded))).sum
  if 0 < total then (done : ℚ) / (total : ℚ)
  else if items = [] then 0
  else (countDone items : ℚ) / (items.length : ℚ)

/-- The aggregation rule exactly as the specification words it:
"if total known size across all items is greater than zero, overall
fraction = sum(min(transferred, size-or-transferred)) / sum(size);
else overall fraction = count(Done) / count(items)". -/
def specFraction (items : List Item) : ℚ :=
  let totalKnown : Nat := (items.filterMap Item.size).sum
  let transferredSum : Nat :=
    (items.map (fun it => min it.downloaded (it.size.getD it.downloaded))).sum
  if 0 < totalKnown then (transferredSum : ℚ) / (totalKnown : ℚ)
  else (countDone items : ℚ) / (items.length : ℚ)

/-- The batch-completion test in `MainWindow.on_finished` (line 553):
`all(it.status in ("Done", "Error", "Canceled") for it in self.items if self.items)`.
The `if self.items` clause is a per-element filter inside the generator
expression, so on an empty collection the generator is empty and `all`
returns `True`. -/
def allTerminalQuirk (items : List Item) : Bool :=
  (items.filter (fun _ => !items.isEmpty)).all (fun it => it.status.terminal)

/-- Whether a `finished` event makes `on_finished` call `extract_all`
(lines 551-555): the batch test above must pass and the auto-extract
checkbox (`self.chk_extract`) must be checked. -/
def onFinishedTriggers (items : List Item) (chkExtract : Bool) : Bool :=
  allTerminalQuirk items && chkExtract

/-- CHUNK_SIZE of the source (line 108): 1 MiB. -/
def CHUNK_SIZE : Nat := 1024 * 1024

/-- What the worker observes of its cooperative pause/stop flags during
one chunk iteration of `DownloadWorker.run` (lines 240-247):
`go` means neither flag was set; `stop` means `is_stopped()` was already
true at the top of the iteration; `pauseResume` means the pause loop
was entered and exited by a resume; `pauseStop` means the pause loop
was entered and exited because a cancel arrived during the wait (the
chunk in hand is still written; the stop is observed at the top of the
next iteration). -/
inductive Ctrl where
  | go
  | stop
  | pauseResume
  | pauseStop
deriving DecidableEq, Repr

/-- The remote end as `DownloadWorker.run` observes it.  `blob` is the
remote file's bytes; `honorsRange` says whether a ranged GET is
answered with 206 and the requested suffix (otherwise 200 and the full
body); `headOk`/`headCL` describe the HEAD probe (a failed probe is
`headOk = false`); `getOk` is whether the GET raises; `getCL` is
whether the GET response carries a Content-Length header. -/
structure Server where
  blob : List Nat
  honorsRange : Bool
  headOk : Bool
  headCL : Option Nat
  getOk : Bool
  getCL : Bool
deriving Repr

/-- Terminal result of one invocation of `DownloadWorker.run`. -/
inductive Outcome where
  | done
  | canceled
  | error
deriving DecidableEq, Repr

/-- Observable result of one run: the two file artifacts, the item's
byte counters, the Range request made (if any), the resume offset in
effect once the response status was inspected, the file-open mode
(`some true` = append "ab", `some false` = truncate "wb", `none` = the
file was never opened), the outcome, and whether an error was
emitted. -/
structure RunResult where
  temp : Option (List Nat)
  final : Option (List Nat)
  downloaded : Nat
  size : Option Nat
  rangeRequested : Option Nat
  resumeUsed : Nat
  modeAppend : Option Bool
  outcome : Outcome
  errorEmitted : Bool
deriving DecidableEq, Repr

/-- Splitting of the response body performed by
`r.iter_content(chunk_size=CHUNK_SIZE)`: consecutive chunks of `n`
bytes, the last one possibly shorter.  No empty chunks are produced,
matching the `if not chunk: continue` guard being dead for a
fully-buffered body. -/
def chunksOf (n : Nat) (l : List Nat) : List (List Nat) :=
  if h : n = 0 ∨ l = [] then []
  else l.take n :: chunksOf n (l.drop n)
termination_by l.length
decreasing_by
  have hn : n ≠ 0 := fun hh => h (Or.inl hh)
  have hl : l ≠ [] := fun hh => h (Or.inr hh)
  simp only [List.length_drop]
  exact Nat.sub_lt (List.length_pos.mpr hl) (Nat.pos_of_ne_zero hn)

/-- The chunk-streaming loop of `DownloadWorker.run` (lines 240-255).
Arguments: remaining chunks, remaining per-iteration control
observations (`Ctrl.go` once the list is exhausted), current temp-file
content, current `item.downloaded`, and whether a stop was already
latched by a `pauseStop` in the previous iteration.  Returns the final
temp content, the final `item.downloaded`, and whether the loop ended
by cancellation (`return` at line 243) rather than by exhausting the
body. -/
def writeLoop : List (List Nat) → List Ctrl → List Nat → Nat → Bool →
    List Nat × Nat × Bool
  | [], _, acc, dl, _ => (acc, dl, false)
  | c :: rest, ctrls, acc, dl, stopped =>
    if stopped || decide (ctrls.headD .go = .stop) then (acc, dl, true)
    else
      writeLoop rest ctrls.tail (acc ++ c) (dl + c.length)
        (decide (ctrls.headD .go = .pauseStop))

/-- One invocation of `DownloadWorker.run` (lines 177-265) against a
`Server`, given the on-disk state of the temp and final artifacts and
the control observations for each chunk iteration. -/
def run (srv : Server) (temp0 final0 : Option (List Nat))
    (ctrls : List Ctrl) : RunResult :=
  match temp0, final0 with
  | none, some fin =>
      -- lines 189-196: no temp but the final file exists: emit Done
      -- with its size, without touching the network
      { temp := none, final := some fin, downloaded := fin.length,
        size := some fin.length, rangeRequested := none, resumeUsed := 0,
        modeAppend := none, outcome := .done, errorEmitted := false }
  | _, _ =>
    -- lines 185-188: resume offset = size of the existing temp file
    let resume0 : Nat := match temp0 with | some t => t.length | none => 0
    -- lines 198-206: HEAD probe; `int(headers.get("Content-Length","0")) or None`
    let size0 : Option Nat :=
      if srv.headOk then
        match srv.headCL with
        | some n => if n = 0 then none else some n
        | none => none
      else none
    -- lines 208-211: mode = "ab" iff resuming; Range header; downloaded
    let mode0 : Bool := resume0 ≠ 0
    let rangeReq : Option Nat := if resume0 ≠ 0 then some resume0 else none
    let dl0 : Nat := if resume0 ≠ 0 then resume0 else 0
    if srv.getOk then
      -- the GET succeeded; 206 iff a range was requested and honored
      let status : Nat := if rangeReq.isSome && srv.honorsRange then 206 else 200
      let body : List Nat := if status = 206 then srv.blob.drop resume0 else srv.blob
      -- lines 217-222 (dead here, since status is always 200 or 206)
      let s1 : Nat × Nat × Bool :=
        if resume0 ≠ 0 ∧ status ≠ 206 ∧ status ≠ 200 then (0, 0, false)
        else (resume0, dl0, mode0)
      -- lines 223-227: the server ignored the range: restart from zero
      let s2 : Nat × Nat × Bool :=
        if status = 200 ∧ s1.1 ≠ 0 then (0, 0, false) else s1
      let resume2 : Nat := s2.1
      let dl2 : Nat := s2.2.1
      let modeAppend : Bool := s2.2.2
      -- lines 229-236: infer total size from the response length
      let size1 : Option Nat :=
        match size0 with
        | some s => some s
        | none =>
          if srv.getCL ∧ 0 < body.length then some (body.length + resume2) else none
      -- line 238: open(temp_path, mode)
      let init : List Nat := if modeAppend then temp0.getD [] else []
      let r := writeLoop (chunksOf CHUNK_SIZE body) ctrls init dl2 false
      if r.2.2 then
        -- lines 241-243: canceled between chunks; temp left as written
        { temp := some r.1, final := final0, downloaded := r.2.1, size := size1,
          rangeRequested := rangeReq, resumeUsed := resume2,
          modeAppend := some modeAppend, outcome := .canceled,
          errorEmitted := false }
      else
        -- lines 257-261: os.replace(temp, final); emit Done
        { temp := none, final := some r.1, downloaded := r.2.1, size := size1,
          rangeRequested := rangeReq, resumeUsed := resume2,
          modeAppend := some modeAppend, outcome := .done,
          errorEmitted := false }
    else
      -- lines 262-265: RequestException: record error, files untouched
      { temp := temp0, final := final0, downloaded := dl0, size := size0,
        rangeRequested := rangeReq, resumeUsed := resume0, modeAppend := none,
        outcome := .error, errorEmitted := true }

/-- Scheduler state of `MainWindow`.  Python mutates shared
`DownloadItem` objects through references held both by `self.items`
and by each worker, so the embedding carries an explicit heap:
`objs` lists every item object ever created (its position is the
object's identity and never changes), `display` is `self.items` as a
list of object ids in display order, `workers` is the dict
`self.workers` as an association list from dict key (the `item.index`
at worker-creation time) to the id of the item object the worker was
built around, and `ceiling` is `self.max_concurrency`. -/
structure Sched where
  objs : List Item
  display : List Nat
  workers : List (Nat × Nat)
  ceiling : Nat
deriving DecidableEq, Repr

/-- Status of the item object with identity `id` (reading
`some_item.status` through a reference). -/
def objStatus (st : Sched) (id : Nat) : Option Status :=
  (st.objs[id]?).map Item.status

/-- Assignment `item.status = s` through a reference to the object
with identity `id`. -/
def setObjStatus (st : Sched) (id : Nat) (s : Status) : Sched :=
  match st.objs[id]? with
  | some it => { st with objs := st.objs.set id { it with status := s } }
  | none => st

/-- The list `self.items` as the list of item objects it references. -/
def itemsOf (st : Sched) : List Item :=
  st.display.map (fun id => (st.objs[id]?).getD default)

/-- How many of the given object ids currently have status
Downloading. -/
def downCountOn (ids : List Nat) (st : Sched) : Nat :=
  ids.countP (fun id => decide (objStatus st id = some Status.Downloading))

/-- Number of items in the collection whose status is Downloading. -/
def downCount (st : Sched) : Nat :=
  downCountOn st.display st

/-- Line 501: `active = sum(1 for w in self.workers.values() if w and
w.item.status == "Downloading")` — each worker's item is the heap
object it references, which may or may not still be displayed. -/
def activeCount (st : Sched) : Nat :=
  st.workers.countP (fun kv => decide (objStatus st kv.2 = some Status.Downloading))

/-- Whether the object `id` currently has one of the admission-eligible
statuses of line 508. -/
def eligAt (st : Sched) (id : Nat) : Bool :=
  match objStatus st id with
  | some s => s.eligible
  | none => false

/-- The admission step of `_pump_queue` (lines 509-519) for the
eligible item object `it` with identity `id`: reuse the worker found
under dict key `item.index` or create one under that key, and set the
item's status to Downloading. -/
def admitOne (st : Sched) (id : Nat) (it : Item) : Sched :=
  { st with
    objs := st.objs.set id { it with status := .Downloading },
    workers :=
      if (st.workers.find? (fun kv => kv.1 == it.index)).isSome then st.workers
      else st.workers ++ [(it.index, id)] }

/-- The admission loop of `_pump_queue` (lines 505-520): scan the
display list in order; stop when no slot remains; admit each item with
an eligible status while slots remain. -/
def pumpGo : List Nat → Nat → Sched → Sched
  | [], _, st => st
  | id :: rest, avail, st =>
    if avail = 0 then st
    else
      match st.objs[id]? with
      | none => pumpGo rest avail st
      | some it =>
        if it.status.eligible then pumpGo rest (avail - 1) (admitOne st id it)
        else pumpGo rest avail st

/-- `MainWindow._pump_queue` (lines 500-521): compute the number of
active workers, return if no slot is free, otherwise admit eligible
items in display order until the slots are exhausted. -/
def pump (st : Sched) : Sched :=
  if st.ceiling ≤ activeCount st then st
  else pumpGo st.display (st.ceiling - activeCount st) st

/-- `MainWindow.on_progress` (lines 529-536): `item = self.items[index]`
with no bounds check — `none` models the `IndexError` raised when the
carried index is out of range.  The event's `total` is an `Int`
because the worker signals `item.size or -1`. -/
def onProgress (st : Sched) (index downloaded : Nat) (total : Int) :
    Option Sched :=
  match st.display[index]? with
  | none => none
  | some id =>
    match st.objs[id]? with
    | none => none
    | some it =>
      let it1 := { it with downloaded := downloaded }
      let it2 := if 0 < total then { it1 with size := some total.toNat } else it1
      some { st with objs := st.objs.set id it2 }

/-- `MainWindow.on_status` (lines 538-543): same unguarded lookup. -/
def onStatus (st : Sched) (index : Nat) (s : Status) : Option Sched :=
  match st.display[index]? with
  | none => none
  | some id =>
    match st.objs[id]? with
    | none => none
    | some it => some { st with objs := st.objs.set id { it with status := s } }

/-- The common shape of `pause_selected` / `resume_selected` /
`cancel_selected` (lines 562-602): for each selected row, if a worker
exists under that dict key, signal it and set
`self.items[row].status = s`.  A row with a worker entry but no
display item would raise in Python; it is a no-op here and never
arises for rows coming from the selection model. -/
def controlGo (s : Status) : List Nat → Sched → Sched
  | [], st => st
  | row :: rs, st =>
    controlGo s rs
      (if (st.workers.find? (fun kv => kv.1 == row)).isSome then
        match st.display[row]? with
        | some id => setObjStatus st id s
        | none => st
      else st)

/-- `MainWindow._add_item` (lines 484-492): append a fresh Queued item
whose `index` is the current length of the collection. -/
def addItem (st : Sched) : Sched :=
  { st with
    objs := st.objs
      ++ [{ index := st.display.length, status := .Queued, size := none,
            downloaded := 0 }],
    display := st.display ++ [st.objs.length] }

/-- The per-row body of `remove_selected` (lines 606-616), applied to
the rows in the order given: cancel is signalled to the worker (no
scheduler-state effect), the row is deleted from `self.items`, and the
dict entry under that key — if any — is popped. -/
def removeGo : List Nat → Sched → Sched
  | [], st => st
  | r :: rs, st =>
    removeGo rs
      { st with display := st.display.eraseIdx r,
                workers := st.workers.filter (fun kv => decide (kv.1 ≠ r)) }

/-- The reindex loop of lines 617-619:
`for i, it in enumerate(self.items): it.index = i`, writing through
the display list's object references. -/
def reindexGo (k : Nat) : List Nat → List Item → List Item
  | [], objs => objs
  | id :: rest, objs =>
    match objs[id]? with
    | some it => reindexGo (k + 1) rest (objs.set id { it with index := k })
    | none => reindexGo (k + 1) rest objs

/-- `MainWindow.remove_selected` (lines 604-621): process the selected
rows in descending order (`sorted(rows, reverse=True)`), then reindex
the remaining items.  The worker dict keys are never rebound. -/
def removeRows (rows : List Nat) (st : Sched) : Sched :=
  let sorted := List.insertionSort (· ≥ ·) rows
  let st1 := removeGo sorted st
  { st1 with objs := reindexGo 0 st1.display st1.objs }

/-- The user-driven scheduler operations named by the specification:
add item, start/pump, pause, resume, cancel, remove, ceiling change. -/
inductive Op where
  | add
  | pump
  | pause (rows : List Nat)
  | resume (rows : List Nat)
  | cancel (rows : List Nat)
  | remove (rows : List Nat)
  | setCeiling (n : Nat)
deriving DecidableEq, Repr

/-- Effect of one operation, as wired in the source: `resume_selected`
marks the rows Downloading and then pumps (lines 572-581);
`_update_concurrency` stores the new ceiling and pumps (641-643);
`start_queue` pumps (494-498). -/
def applyOp : Op → Sched → Sched
  | .add, st => addItem st
  | .pump, st => pump st
  | .pause rows, st => controlGo .Paused rows st
  | .resume rows, st => pump (controlGo .Downloading rows st)
  | .cancel rows, st => controlGo .Canceled rows st
  | .remove rows, st => removeRows rows st
  | .setCeiling n, st => pump { st with ceiling := n }

/-- A sequence of operations applied in order. -/
def applyOps : List Op → Sched → Sched
  | [], st => st
  | o :: ops, st => applyOps ops (applyOp o st)

/-- Fresh scheduler: no items, no workers, concurrency ceiling `c`
(the source starts with `max_concurrency = 3`). -/
def mkInit (c : Nat) : Sched := ⟨[], [], [], c⟩

/-- Operations that do not resume, remove, or lower the ceiling. -/
def SafeOp (st : Sched) : Op → Prop
  | .add => True
  | .pump => True
  | .pause _ => True
  | .cancel _ => True
  | .setCeiling n => st.ceiling ≤ n
  | _ => False

/-- A sequence of operations each of which is safe in the state where
it runs. -/
inductive SafeSeq : Sched → List Op → Prop
  | nil (st : Sched) : SafeSeq st []
  | cons {st : Sched} {o : Op} {ops : List Op} :
      SafeOp st o → SafeSeq (applyOp o st) ops → SafeSeq st (o :: ops)

/-- Specification-side helper: drop from `l` the elements whose
position (counted from `i`) is listed in `rows`, keeping the order of
the rest. -/
def keepNotIn {α : Type} (rows : List Nat) : Nat → List α → List α
  | _, [] => []
  | i, a :: l =>
    if i ∈ rows then keepNotIn rows (i + 1) l
    else a :: keepNotIn rows (i + 1) l

/-- Specification-side helper: rewrite the `index` fields to be
consecutive starting at `k`. -/
def reindexSpec : Nat → List Item → List Item
  | _, [] => []
  | k, it :: l => { it with index := k } :: reindexSpec (k + 1) l

/-- The claim's property that every task-map entry is keyed by the
current display position of its item: entry `(key, id)` is correct
when `self.items[key]` is the object `id`. -/
def taskMapRebound (st : Sched) : Bool :=
  st.workers.all (fun kv => decide (st.display[kv.1]? = some kv.2))

/-- Concrete two-item scheduler state used to exercise
`remove_selected`: both items running, each with its worker entry
under its display index. -/
def removeCexState : Sched :=
  ⟨[⟨0, .Downloading, none, 0⟩, ⟨1, .Downloading, none, 0⟩],
   [0, 1], [(0, 0), (1, 1)], 3⟩

/-- Structural invariant of the scheduler heap maintained by the safe
operations: every item object records its own identity in its `index`
field, every worker entry references the item at its own key, worker
keys are distinct, and every Downloading object has a worker entry. -/
structure WInv (st : Sched) : Prop where
  kidx : ∀ (id : Nat) (it : Item), st.objs[id]? = some it → it.index = id
  wkeys : ∀ kv ∈ st.workers, kv.2 = kv.1 ∧ kv.1 < st.objs.length
  wnodup : (st.workers.map Prod.fst).Nodup
  dworker : ∀ id : Nat, objStatus st id = some .Downloading →
    ∃ kv ∈ st.workers, kv.1 = id

/-- Full inductive invariant for the concurrency bound: the display
list is exactly the heap in creation order, and the number of
Downloading items is within the ceiling. -/
structure SchedInv (st : Sched) : Prop where
  winv : WInv st
  disp : st.display = List.range st.objs.length
  bound : downCount st ≤ st.ceiling

/-- Concrete four-item scheduler state matching the specification's
admission example: indices [0,1,2,3] all eligible and a ceiling of 2. -/
def fourQueuedState : Sched :=
  ⟨[⟨0, .Queued, none, 0⟩, ⟨1, .Queued, none, 0⟩, ⟨2, .Queued, none, 0⟩,
    ⟨3, .Queued, none, 0⟩], [0, 1, 2, 3], [], 2⟩

/- ------------------------------------------------------------------ -/
/- Theorems                                                           -/
/- ------------------------------------------------------------------ -/

theorem sum_filterMap_size (items : List Item) :
    (items.filterMap Item.size).sum = (items.map (fun it => it.size.getD 0)).sum := by
  induction items with
  | nil => rfl
  | cons it rest ih =>
    cases h : it.size with
    | none => simp [List.filterMap_cons, h, ih]
    | some s => simp [List.filterMap_cons, h, ih]

/-- C2 (amended): on each `finished` event, `on_finished` calls
`extract_all` exactly when the auto-extract checkbox is set and every
item in the collection has a terminal status; the emptiness condition
in the source is vacuous, so the empty collection also triggers it. -/
theorem on_finished_trigger_iff (items : List Item) (chk : Bool) :
    onFinishedTriggers items chk
      = (chk && items.all (fun it => it.status.terminal)) := by
  cases items with
  | nil => simp [onFinishedTriggers, allTerminalQuirk]
  | cons it rest =>
    simp [onFinishedTriggers, allTerminalQuirk, Bool.and_comm]

/-- C2 counterexample: with an empty item collection and extraction
enabled, the `on_finished` guard passes and `extract_all` is invoked,
contradicting "it is a no-op when the collection is empty". -/
theorem on_finished_fires_on_empty : onFinishedTriggers [] true = true := rfl

/-- C7: the overall fraction computed by `_update_overall` agrees with
the specification's aggregation rule on every item collection, and the
spec's two worked examples hold: sizes `[100, 100]` with transferred
`[50, 100]` yield `3/4`, and unknown sizes with statuses
`[Done, Downloading, Queued]` yield `1/3`. -/
theorem overall_fraction_spec_and_examples :
    (∀ items : List Item, overallFraction items = specFraction items)
    ∧ overallFraction
        [⟨0, .Downloading, some 100, 50⟩, ⟨1, .Done, some 100, 100⟩] = 3 / 4
    ∧ overallFraction
        [⟨0, .Done, none, 0⟩, ⟨1, .Downloading, none, 5⟩, ⟨2, .Queued, none, 0⟩]
        = 1 / 3 := by
  refine ⟨fun items => ?_, ?_, ?_⟩
  · have hsz := sum_filterMap_size items
    simp only [overallFraction, specFraction, hsz]
    by_cases h0 : 0 < (items.map (fun it => it.size.getD 0)).sum
    · rw [if_pos h0, if_pos h0]
    · rw [if_neg h0, if_neg h0]
      by_cases h1 : items = []
      · subst h1
        simp [countDone]
      · rw [if_neg h1]
  · simp only [overallFraction, countDone]
    norm_num
  · simp only [overallFraction, countDone]
    simp [List.countP_cons]

/-- C3 counterexample: an item with unknown size but positive
transferred bytes contributes to the numerator and not to the
denominator, so the overall fraction can exceed `1` (here it is `3`). -/
theorem overall_fraction_exceeds_one :
    1 < overallFraction [⟨0, .Downloading, none, 200⟩, ⟨1, .Done, some 100, 100⟩] := by
  simp only [overallFraction, countDone]
  norm_num

/-- C3 (amended): whenever every item's size is known, the overall
fraction produced by `_update_overall` lies in `[0, 1]`; with a mix of
known and unknown sizes it can exceed `1`. -/
theorem overall_fraction_bounded (items : List Item)
    (h : ∀ it ∈ items, it.size.isSome) :
    0 ≤ overallFraction items ∧ overallFraction items ≤ 1 := by
  simp only [overallFraction]
  by_cases h0 : 0 < (items.map (fun it => it.size.getD 0)).sum
  · rw [if_pos h0]
    constructor
    · positivity
    · rw [div_le_one (by exact_mod_cast h0)]
      have hle : (items.map (fun it => min it.downloaded (it.size.getD it.downloaded))).sum
          ≤ (items.map (fun it => it.size.getD 0)).sum := by
        apply List.sum_le_sum
        intro it hit
        rcases Option.isSome_iff_exists.mp (h it hit) with ⟨s, hs⟩
        simp [hs]
      exact_mod_cast hle
  · rw [if_neg h0]
    by_cases h1 : items = []
    · rw [if_pos h1]
      exact ⟨le_refl 0, zero_le_one⟩
    · rw [if_neg h1]
      constructor
      · positivity
      · have hlen : (0 : ℚ) < items.length := by
          have : 0 < items.length := List.length_pos.mpr h1
          exact_mod_cast this
        rw [div_le_one hlen]
        have hcd : countDone items ≤ items.length := List.countP_le_length _
        exact_mod_cast hcd

/-- Witness for `overall_fraction_bounded` at a concrete collection. -/
theorem overall_fraction_bounded_witness :
    (∀ it ∈ [(⟨0, .Downloading, some 100, 50⟩ : Item), ⟨1, .Done, some 40, 40⟩], it.size.isSome)
    ∧ (0 ≤ overallFraction [⟨0, .Downloading, some 100, 50⟩, ⟨1, .Done, some 40, 40⟩]
       ∧ overallFraction [⟨0, .Downloading, some 100, 50⟩, ⟨1, .Done, some 40, 40⟩] ≤ 1) :=
  ⟨by decide, overall_fraction_bounded _ (by decide)⟩

theorem writeLoop_all_go (n : Nat) (hn : 0 < n) (l acc : List Nat) (dl : Nat) :
    writeLoop (chunksOf n l) [] acc dl false = (acc ++ l, dl + l.length, false) := by
  by_cases hl : l = []
  · subst hl
    rw [chunksOf]
    simp [writeLoop]
  · rw [chunksOf, dif_neg (by simp [Nat.pos_iff_ne_zero.mp hn, hl])]
    rw [writeLoop]
    have h1 : (false || decide ((([] : List Ctrl).headD .go) = .stop)) = false := rfl
    rw [h1, if_neg Bool.false_ne_true]
    show writeLoop (chunksOf n (l.drop n)) [] (acc ++ l.take n)
        (dl + (l.take n).length) false = _
    rw [writeLoop_all_go n hn (l.drop n) (acc ++ l.take n) (dl + (l.take n).length)]
    rw [show acc ++ l.take n ++ l.drop n = acc ++ l by
      rw [List.append_assoc, List.take_append_drop]]
    have h2 : dl + (l.take n).length + (l.drop n).length = dl + l.length := by
      simp only [List.length_take, List.length_drop]
      omega
    rw [h2]
termination_by l.length
decreasing_by
  simp only [List.length_drop]
  exact Nat.sub_lt (List.length_pos.mpr hl) hn

theorem writeLoop_stop_at (n : Nat) (hn : 0 < n) (k : Nat) :
    ∀ l acc : List Nat, ∀ dl : Nat, k * n < l.length →
      writeLoop (chunksOf n l) (List.replicate k .go ++ [.stop]) acc dl false
        = (acc ++ l.take (k * n), dl + k * n, true) := by
  induction k with
  | zero =>
    intro l acc dl hk
    have hl : l ≠ [] := by
      intro h
      subst h
      simp at hk
    rw [chunksOf, dif_neg (by simp [Nat.pos_iff_ne_zero.mp hn, hl])]
    rw [writeLoop]
    simp
  | succ k ih =>
    intro l acc dl hk
    have hl : l ≠ [] := by
      intro h
      subst h
      simp at hk
    have hn_le : n ≤ l.length := by
      have h1 : n ≤ (k + 1) * n := Nat.le_mul_of_pos_left n (Nat.succ_pos k)
      omega
    rw [chunksOf, dif_neg (by simp [Nat.pos_iff_ne_zero.mp hn, hl])]
    rw [writeLoop]
    rw [show (false
        || decide (((List.replicate (k+1) Ctrl.go ++ [Ctrl.stop]).headD .go) = .stop))
        = false from rfl, if_neg Bool.false_ne_true]
    show writeLoop (chunksOf n (l.drop n)) (List.replicate k .go ++ [.stop])
        (acc ++ l.take n) (dl + (l.take n).length) false = _
    have hk2 : k * n < (l.drop n).length := by
      rw [List.length_drop]
      have h2 : (k + 1) * n = k * n + n := Nat.succ_mul k n
      omega
    rw [ih (l.drop n) (acc ++ l.take n) (dl + (l.take n).length) hk2]
    have htl : (l.take n).length = n := by
      rw [List.length_take]
      omega
    rw [htl]
    have hmul : (k + 1) * n = n + k * n := by ring
    rw [hmul, List.take_add, ← List.append_assoc]
    have hdl : dl + n + k * n = dl + (n + k * n) := by omega
    rw [hdl]

theorem writeLoop_pauseStop_at (n : Nat) (hn : 0 < n) (k : Nat) :
    ∀ l acc : List Nat, ∀ dl : Nat, (k + 1) * n < l.length →
      writeLoop (chunksOf n l) (List.replicate k .go ++ [.pauseStop]) acc dl false
        = (acc ++ l.take ((k + 1) * n), dl + (k + 1) * n, true) := by
  induction k with
  | zero =>
    intro l acc dl hk
    have hn_le : n < l.length := by
      have h0 : (0 + 1) * n = n := by ring
      omega
    have hl : l ≠ [] := by
      intro h
      subst h
      simp at hn_le
    rw [chunksOf, dif_neg (by simp [Nat.pos_iff_ne_zero.mp hn, hl])]
    rw [writeLoop]
    rw [show (false
        || decide (((List.replicate 0 Ctrl.go ++ [Ctrl.pauseStop]).headD .go) = .stop))
        = false from rfl, if_neg Bool.false_ne_true]
    show writeLoop (chunksOf n (l.drop n)) [] (acc ++ l.take n)
        (dl + (l.take n).length) true = _
    have hl2 : l.drop n ≠ [] := by
      intro h
      have h3 := congrArg List.length h
      simp only [List.length_drop, List.length_nil] at h3
      omega
    rw [chunksOf, dif_neg (by simp [Nat.pos_iff_ne_zero.mp hn, hl2])]
    rw [writeLoop]
    rw [if_pos (by simp : (true || decide ((([] : List Ctrl).headD .go) = .stop)) = true)]
    have htl : (l.take n).length = n := by
      rw [List.length_take]
      omega
    rw [htl]
    have hmul : (0 + 1) * n = n := by ring
    rw [hmul]
  | succ k ih =>
    intro l acc dl hk
    have hl : l ≠ [] := by
      intro h
      subst h
      simp at hk
    have hn_le : n ≤ l.length := by
      have h1 : n ≤ (k + 1 + 1) * n := Nat.le_mul_of_pos_left n (by omega)
      omega
    rw [chunksOf, dif_neg (by simp [Nat.pos_iff_ne_zero.mp hn, hl])]
    rw [writeLoop]
    rw [show (false
        || decide (((List.replicate (k+1) Ctrl.go ++ [Ctrl.pauseStop]).headD .go) = .stop))
        = false from rfl, if_neg Bool.false_ne_true]
    show writeLoop (chunksOf n (l.drop n)) (List.replicate k .go ++ [.pauseStop])
        (acc ++ l.take n) (dl + (l.take n).length) false = _
    have hk2 : (k + 1) * n < (l.drop n).length := by
      rw [List.length_drop]
      have h2 : (k + 1 + 1) * n = (k + 1) * n + n := by ring
      omega
    rw [ih (l.drop n) (acc ++ l.take n) (dl + (l.take n).length) hk2]
    have htl : (l.take n).length = n := by
      rw [List.length_take]
      omega
    rw [htl]
    have hmul : (k + 1 + 1) * n = n + (k + 1) * n := by ring
    rw [hmul, List.take_add, ← List.append_assoc]
    have hdl : dl + n + (k + 1) * n = dl + (n + (k + 1) * n) := by omega
    rw [hdl]

/-- C6: canceling a fresh run before chunk `k` leaves the temp file
holding exactly the bytes written so far (`blob.take (k * CHUNK_SIZE)`),
emits Canceled, and does not produce the final file; a subsequent run
of the same item requests a byte range starting exactly at that length,
keeps it as the resume offset, opens the temp file in append mode, and
completes with the final file equal to the full blob (no bytes lost,
none duplicated). -/
theorem cancel_then_resume_exact (srv : Server) (k : Nat)
    (hget : srv.getOk = true) (hrange : srv.honorsRange = true)
    (hk0 : 0 < k) (hk : k * CHUNK_SIZE < srv.blob.length) :
    let r1 := run srv none none (List.replicate k .go ++ [.stop])
    let r2 := run srv r1.temp none []
    r1.outcome = .canceled
    ∧ r1.temp = some (srv.blob.take (k * CHUNK_SIZE))
    ∧ r1.final = none
    ∧ r1.downloaded = k * CHUNK_SIZE
    ∧ r2.rangeRequested = some (k * CHUNK_SIZE)
    ∧ r2.resumeUsed = k * CHUNK_SIZE
    ∧ r2.modeAppend = some true
    ∧ r2.final = some srv.blob
    ∧ r2.outcome = .done
    ∧ r2.errorEmitted = false := by
  have hCH : 0 < CHUNK_SIZE := by norm_num [CHUNK_SIZE]
  have hw1 := writeLoop_stop_at CHUNK_SIZE hCH k srv.blob [] 0 hk
  have htk : (srv.blob.take (k * CHUNK_SIZE)).length = k * CHUNK_SIZE := by
    rw [List.length_take]
    omega
  have hne : k * CHUNK_SIZE ≠ 0 :=
    Nat.mul_ne_zero (by omega) (by norm_num [CHUNK_SIZE])
  have hw2 := writeLoop_all_go CHUNK_SIZE hCH (srv.blob.drop (k * CHUNK_SIZE))
    (srv.blob.take (k * CHUNK_SIZE)) (k * CHUNK_SIZE)
  have hr1temp : (run srv none none (List.replicate k Ctrl.go ++ [Ctrl.stop])).temp
      = some (srv.blob.take (k * CHUNK_SIZE)) := by
    simp [run, hget, hrange, hw1]
  refine ⟨?_, ?_, ?_, ?_, ?_, ?_, ?_, ?_, ?_, ?_⟩
  · simp [run, hget, hrange, hw1]
  · exact hr1temp
  · simp [run, hget, hrange, hw1]
  · simp [run, hget, hrange, hw1]
  · rw [hr1temp]
    simp [run, hget, hrange, htk, hne, hw2]
  · rw [hr1temp]
    simp [run, hget, hrange, htk, hne, hw2]
  · rw [hr1temp]
    simp [run, hget, hrange, htk, hne, hw2]
  · rw [hr1temp]
    simp [run, hget, hrange, htk, hne, hw2, List.take_append_drop]
  · rw [hr1temp]
    simp [run, hget, hrange, htk, hne, hw2]
  · rw [hr1temp]
    simp [run, hget, hrange, htk, hne, hw2]

/-- Witness for `cancel_then_resume_exact`: a 2 MiB blob canceled
before its second chunk, then resumed to completion. -/
theorem cancel_then_resume_exact_witness :
    ((0 < 1 ∧ 1 * CHUNK_SIZE
        < ((⟨List.replicate (2 * CHUNK_SIZE) 0, true, true, none, true, true⟩ : Server)).blob.length))
    ∧ (let srv : Server := ⟨List.replicate (2 * CHUNK_SIZE) 0, true, true, none, true, true⟩
       let r1 := run srv none none (List.replicate 1 .go ++ [.stop])
       let r2 := run srv r1.temp none []
       r1.outcome = .canceled
       ∧ r1.temp = some (srv.blob.take (1 * CHUNK_SIZE))
       ∧ r1.final = none
       ∧ r1.downloaded = 1 * CHUNK_SIZE
       ∧ r2.rangeRequested = some (1 * CHUNK_SIZE)
       ∧ r2.resumeUsed = 1 * CHUNK_SIZE
       ∧ r2.modeAppend = some true
       ∧ r2.final = some srv.blob
       ∧ r2.outcome = .done
       ∧ r2.errorEmitted = false) :=
  ⟨⟨Nat.one_pos, by norm_num [CHUNK_SIZE]⟩,
   cancel_then_resume_exact _ 1 rfl rfl Nat.one_pos (by norm_num [CHUNK_SIZE])⟩

/-- C8: when a run starts with a non-zero resume offset (a non-empty
temp file) but the server answers the ranged fetch with a 200
full-content response, the offset is discarded (`resumeUsed = 0`), the
temp file is opened in truncating mode, and the download restarts from
byte zero and completes with the full blob without reporting an
error. -/
theorem range_ignored_restarts (srv : Server) (t : List Nat)
    (hget : srv.getOk = true) (hrange : srv.honorsRange = false) (ht : t ≠ []) :
    (run srv (some t) none []).rangeRequested = some t.length
    ∧ (run srv (some t) none []).resumeUsed = 0
    ∧ (run srv (some t) none []).modeAppend = some false
    ∧ (run srv (some t) none []).downloaded = srv.blob.length
    ∧ (run srv (some t) none []).final = some srv.blob
    ∧ (run srv (some t) none []).temp = none
    ∧ (run srv (some t) none []).outcome = Outcome.done
    ∧ (run srv (some t) none []).errorEmitted = false := by
  have hCH : 0 < CHUNK_SIZE := by norm_num [CHUNK_SIZE]
  have htlen : t.length ≠ 0 := by simpa using ht
  have hw := writeLoop_all_go CHUNK_SIZE hCH srv.blob [] 0
  simp [run, hget, hrange, htlen, hw]

/-- Witness for `range_ignored_restarts` on a concrete server and
partial file. -/
theorem range_ignored_restarts_witness :
    (([1, 2] : List Nat) ≠ []
     ∧ ((⟨[7, 7, 7], false, true, none, true, true⟩ : Server)).honorsRange = false)
    ∧ ((run ⟨[7, 7, 7], false, true, none, true, true⟩ (some [1, 2]) none []).rangeRequested
        = some ([1, 2] : List Nat).length
       ∧ (run ⟨[7, 7, 7], false, true, none, true, true⟩ (some [1, 2]) none []).resumeUsed = 0
       ∧ (run ⟨[7, 7, 7], false, true, none, true, true⟩ (some [1, 2]) none []).modeAppend = some false
       ∧ (run ⟨[7, 7, 7], false, true, none, true, true⟩ (some [1, 2]) none []).downloaded
        = (⟨[7, 7, 7], false, true, none, true, true⟩ : Server).blob.length
       ∧ (run ⟨[7, 7, 7], false, true, none, true, true⟩ (some [1, 2]) none []).final
        = some (⟨[7, 7, 7], false, true, none, true, true⟩ : Server).blob
       ∧ (run ⟨[7, 7, 7], false, true, none, true, true⟩ (some [1, 2]) none []).temp = none
       ∧ (run ⟨[7, 7, 7], false, true, none, true, true⟩ (some [1, 2]) none []).outcome = Outcome.done
       ∧ (run ⟨[7, 7, 7], false, true, none, true, true⟩ (some [1, 2]) none []).errorEmitted = false) :=
  ⟨⟨by decide, rfl⟩, range_ignored_restarts _ _ rfl rfl (by decide)⟩

/-- C10: if the cancel request arrives while the worker is paused
between chunks (control observation `pauseStop` at iteration `k`), the
worker still writes the chunk it was holding and only observes the
stop at the top of the next iteration: the run ends Canceled with the
temp file holding `k + 1` chunks, one full chunk (`CHUNK_SIZE` = 1 MiB)
more than had been written when the cancel arrived. -/
theorem pauseStop_writes_one_more_chunk (srv : Server) (k : Nat)
    (hget : srv.getOk = true)
    (hk : (k + 1) * CHUNK_SIZE < srv.blob.length) :
    (run srv none none (List.replicate k .go ++ [.pauseStop])).outcome = .canceled
    ∧ (run srv none none (List.replicate k .go ++ [.pauseStop])).temp
        = some (srv.blob.take ((k + 1) * CHUNK_SIZE))
    ∧ (run srv none none (List.replicate k .go ++ [.pauseStop])).downloaded
        = (k + 1) * CHUNK_SIZE
    ∧ (srv.blob.take ((k + 1) * CHUNK_SIZE)).length
        = k * CHUNK_SIZE + CHUNK_SIZE := by
  have hCH : 0 < CHUNK_SIZE := by norm_num [CHUNK_SIZE]
  have hw := writeLoop_pauseStop_at CHUNK_SIZE hCH k srv.blob [] 0 hk
  refine ⟨?_, ?_, ?_, ?_⟩
  · simp [run, hget, hw]
  · simp [run, hget, hw]
  · simp [run, hget, hw]
  · rw [List.length_take]
    have hmul : (k + 1) * CHUNK_SIZE = k * CHUNK_SIZE + CHUNK_SIZE := by ring
    omega

/-- Witness for `pauseStop_writes_one_more_chunk`: cancel during the
pause before the very first chunk of a blob of just over two chunks. -/
theorem pauseStop_writes_one_more_chunk_witness :
    ((0 + 1) * CHUNK_SIZE
      < ((⟨List.replicate (CHUNK_SIZE + CHUNK_SIZE + 1) 0, true, true, none, true, true⟩ : Server)).blob.length)
    ∧ ((run ⟨List.replicate (CHUNK_SIZE + CHUNK_SIZE + 1) 0, true, true, none, true, true⟩
          none none (List.replicate 0 .go ++ [.pauseStop])).outcome = .canceled
       ∧ (run ⟨List.replicate (CHUNK_SIZE + CHUNK_SIZE + 1) 0, true, true, none, true, true⟩
          none none (List.replicate 0 .go ++ [.pauseStop])).temp
          = some ((⟨List.replicate (CHUNK_SIZE + CHUNK_SIZE + 1) 0, true, true, none, true, true⟩ : Server).blob.take ((0 + 1) * CHUNK_SIZE))
       ∧ (run ⟨List.replicate (CHUNK_SIZE + CHUNK_SIZE + 1) 0, true, true, none, true, true⟩
          none none (List.replicate 0 .go ++ [.pauseStop])).downloaded = (0 + 1) * CHUNK_SIZE
       ∧ ((⟨List.replicate (CHUNK_SIZE + CHUNK_SIZE + 1) 0, true, true, none, true, true⟩ : Server).blob.take ((0 + 1) * CHUNK_SIZE)).length
          = 0 * CHUNK_SIZE + CHUNK_SIZE) :=
  ⟨by norm_num [CHUNK_SIZE],
   pauseStop_writes_one_more_chunk _ 0 rfl (by norm_num [CHUNK_SIZE])⟩

theorem Status.eligible_ne_downloading {s : Status} (h : s.eligible = true) :
    s ≠ Status.Downloading := by
  cases s <;> simp_all [Status.eligible]

theorem admitOne_objs_length (st : Sched) (id : Nat) (it : Item) :
    (admitOne st id it).objs.length = st.objs.length := by
  simp [admitOne]

theorem admitOne_display (st : Sched) (id : Nat) (it : Item) :
    (admitOne st id it).display = st.display := rfl

theorem admitOne_ceiling (st : Sched) (id : Nat) (it : Item) :
    (admitOne st id it).ceiling = st.ceiling := rfl

theorem admitOne_objStatus_ne (st : Sched) (id : Nat) (it : Item) {x : Nat}
    (hx : x ≠ id) : objStatus (admitOne st id it) x = objStatus st x := by
  simp only [admitOne, objStatus]
  rw [List.getElem?_set_ne (fun hh => hx hh.symm)]

theorem lt_length_of_getElem?_eq_some {l : List Item} {i : Nat} {it : Item}
    (h : l[i]? = some it) : i < l.length := by
  by_contra hc
  rw [List.getElem?_eq_none (Nat.le_of_not_lt hc)] at h
  cases h

theorem admitOne_objStatus_self (st : Sched) {id : Nat} {it : Item}
    (h : st.objs[id]? = some it) :
    objStatus (admitOne st id it) id = some .Downloading := by
  have hid : id < st.objs.length := lt_length_of_getElem?_eq_some h
  simp [admitOne, objStatus, List.getElem?_set_self hid]

theorem eligAt_congr {st st' : Sched} {x : Nat}
    (h : objStatus st' x = objStatus st x) : eligAt st' x = eligAt st x := by
  simp [eligAt, h]

theorem eligAt_true_of (st : Sched) {id : Nat} {it : Item}
    (h : st.objs[id]? = some it) (he : it.status.eligible = true) :
    eligAt st id = true := by
  simp [eligAt, objStatus, h, he]

theorem eligAt_false_of (st : Sched) {id : Nat} {it : Item}
    (h : st.objs[id]? = some it) (he : ¬ it.status.eligible = true) :
    eligAt st id = false := by
  simp only [eligAt, objStatus, h, Option.map_some']
  exact Bool.eq_false_iff.mpr he

theorem pumpGo_frame (ids : List Nat) :
    ∀ (avail : Nat) (st : Sched),
      (pumpGo ids avail st).display = st.display
      ∧ (pumpGo ids avail st).ceiling = st.ceiling
      ∧ (pumpGo ids avail st).objs.length = st.objs.length := by
  induction ids with
  | nil =>
    intro avail st
    exact ⟨rfl, rfl, rfl⟩
  | cons id rest ih =>
    intro avail st
    rw [pumpGo]
    by_cases ha : avail = 0
    · rw [if_pos ha]
      exact ⟨rfl, rfl, rfl⟩
    · rw [if_neg ha]
      cases h : st.objs[id]? with
      | none =>
        dsimp only
        exact ih avail st
      | some it =>
        dsimp only
        by_cases he : it.status.eligible = true
        · rw [if_pos he]
          refine ⟨(ih _ _).1.trans (admitOne_display st id it),
            (ih _ _).2.1.trans (admitOne_ceiling st id it),
            (ih _ _).2.2.trans (admitOne_objs_length st id it)⟩
        · rw [if_neg he]
          exact ih avail st

theorem pumpGo_objStatus_not_mem (ids : List Nat) :
    ∀ (avail : Nat) (st : Sched) (x : Nat), x ∉ ids →
      objStatus (pumpGo ids avail st) x = objStatus st x := by
  induction ids with
  | nil =>
    intro avail st x _
    rfl
  | cons id rest ih =>
    intro avail st x hx
    have hxid : x ≠ id := fun hh => hx (hh ▸ List.mem_cons_self id rest)
    have hxrest : x ∉ rest := fun hh => hx (List.mem_cons_of_mem id hh)
    rw [pumpGo]
    by_cases ha : avail = 0
    · rw [if_pos ha]
    · rw [if_neg ha]
      cases h : st.objs[id]? with
      | none =>
        dsimp only
        exact ih avail st x hxrest
      | some it =>
        dsimp only
        by_cases he : it.status.eligible = true
        · rw [if_pos he]
          rw [ih _ _ x hxrest]
          exact admitOne_objStatus_ne st id it hxid
        · rw [if_neg he]
          exact ih avail st x hxrest

theorem pumpGo_char (pre : List Nat) :
    ∀ (id : Nat) (post : List Nat) (avail : Nat) (st : Sched),
      (pre ++ id :: post).Nodup →
      (∀ j ∈ pre ++ id :: post, j < st.objs.length) →
      objStatus (pumpGo (pre ++ id :: post) avail st) id
        = if eligAt st id = true ∧ pre.countP (eligAt st) < avail
          then some .Downloading else objStatus st id := by
  induction pre with
  | nil =>
    intro id post avail st hnd hv
    simp only [List.nil_append] at hnd hv ⊢
    have hid : id < st.objs.length := hv id (List.mem_cons_self id post)
    have hsome : st.objs[id]? = some (st.objs.get ⟨id, hid⟩) :=
      List.getElem?_eq_getElem hid
    have hpost : id ∉ post := (List.nodup_cons.mp hnd).1
    by_cases ha : avail = 0
    · rw [pumpGo, if_pos ha, if_neg (by simp [ha])]
    · rw [pumpGo, if_neg ha, hsome]
      dsimp only
      by_cases he : (st.objs.get ⟨id, hid⟩).status.eligible = true
      · rw [if_pos he]
        rw [pumpGo_objStatus_not_mem post _ _ id hpost]
        rw [if_pos ⟨eligAt_true_of st hsome he,
          by simpa using Nat.pos_of_ne_zero ha⟩]
        exact admitOne_objStatus_self st hsome
      · rw [if_neg he]
        rw [pumpGo_objStatus_not_mem post _ _ id hpost]
        rw [if_neg (by simp [eligAt_false_of st hsome he])]
  | cons p pre' ih =>
    intro id post avail st hnd hv
    simp only [List.cons_append] at hnd hv ⊢
    have hp : p < st.objs.length := hv p (List.mem_cons_self _ _)
    have hpsome : st.objs[p]? = some (st.objs.get ⟨p, hp⟩) :=
      List.getElem?_eq_getElem hp
    have hpnot : p ∉ pre' ++ id :: post := (List.nodup_cons.mp hnd).1
    have hnd' : (pre' ++ id :: post).Nodup := (List.nodup_cons.mp hnd).2
    have hpid : p ≠ id := by
      intro hh
      apply hpnot
      rw [hh]
      exact List.mem_append_right pre' (List.mem_cons_self id post)
    by_cases ha : avail = 0
    · rw [pumpGo, if_pos ha, if_neg (by simp [ha])]
    · rw [pumpGo, if_neg ha, hpsome]
      dsimp only
      by_cases he : (st.objs.get ⟨p, hp⟩).status.eligible = true
      · rw [if_pos he]
        have hv' : ∀ j ∈ pre' ++ id :: post,
            j < (admitOne st p (st.objs.get ⟨p, hp⟩)).objs.length := by
          intro j hj
          rw [admitOne_objs_length]
          exact hv j (List.mem_cons_of_mem p hj)
        rw [ih id post (avail - 1) _ hnd' hv']
        have hstat : ∀ x : Nat, x ≠ p →
            objStatus (admitOne st p (st.objs.get ⟨p, hp⟩)) x = objStatus st x :=
          fun x hx => admitOne_objStatus_ne st p _ hx
        have hidstat := hstat id hpid.symm
        have hcnt : pre'.countP (eligAt (admitOne st p (st.objs.get ⟨p, hp⟩)))
            = pre'.countP (eligAt st) := by
          apply List.countP_congr
          intro x hx
          have hxp : x ≠ p := fun hh =>
            hpnot (hh ▸ List.mem_append_left _ hx)
          rw [eligAt_congr (hstat x hxp)]
        rw [eligAt_congr hidstat, hcnt, hidstat]
        have hep : eligAt st p = true := eligAt_true_of st hpsome he
        have hcnt2 : (p :: pre').countP (eligAt st)
            = pre'.countP (eligAt st) + 1 := by
          rw [List.countP_cons]
          simp [hep]
        rw [hcnt2]
        by_cases hcond : eligAt st id = true ∧ pre'.countP (eligAt st) < avail - 1
        · rw [if_pos hcond, if_pos ⟨hcond.1, by omega⟩]
        · rw [if_neg hcond,
            if_neg (fun hc => hcond ⟨hc.1, by omega⟩)]
      · rw [if_neg he]
        rw [ih id post avail st hnd'
          (fun j hj => hv j (List.mem_cons_of_mem p hj))]
        have hep : eligAt st p = false := eligAt_false_of st hpsome he
        have hcnt2 : (p :: pre').countP (eligAt st) = pre'.countP (eligAt st) := by
          rw [List.countP_cons]
          simp [hep]
        rw [hcnt2]

theorem downCountOn_congr {ids : List Nat} {st st' : Sched}
    (h : ∀ x ∈ ids, objStatus st' x = objStatus st x) :
    downCountOn ids st' = downCountOn ids st := by
  apply List.countP_congr
  intro x hx
  rw [h x hx]

theorem downCountOn_cons (id : Nat) (rest : List Nat) (st : Sched) :
    downCountOn (id :: rest) st
      = downCountOn rest st
        + (if objStatus st id = some Status.Downloading then 1 else 0) := by
  simp [downCountOn, List.countP_cons]

theorem pumpGo_downCountOn (ids : List Nat) :
    ∀ (avail : Nat) (st : Sched), ids.Nodup →
      (∀ j ∈ ids, j < st.objs.length) →
      downCountOn ids (pumpGo ids avail st)
        = downCountOn ids st + min avail (ids.countP (eligAt st)) := by
  induction ids with
  | nil =>
    intro avail st _ _
    simp [downCountOn]
  | cons id rest ih =>
    intro avail st hnd hv
    have hid : id < st.objs.length := hv id (List.mem_cons_self id rest)
    have hsome : st.objs[id]? = some (st.objs.get ⟨id, hid⟩) :=
      List.getElem?_eq_getElem hid
    have hrest : id ∉ rest := (List.nodup_cons.mp hnd).1
    have hnd' : rest.Nodup := (List.nodup_cons.mp hnd).2
    by_cases ha : avail = 0
    · subst ha
      rw [pumpGo, if_pos rfl]
      simp
    · rw [pumpGo, if_neg ha, hsome]
      dsimp only
      by_cases he : (st.objs.get ⟨id, hid⟩).status.eligible = true
      · rw [if_pos he]
        have hstat : ∀ x : Nat, x ≠ id →
            objStatus (admitOne st id (st.objs.get ⟨id, hid⟩)) x = objStatus st x :=
          fun x hx => admitOne_objStatus_ne st id _ hx
        have hv' : ∀ j ∈ rest,
            j < (admitOne st id (st.objs.get ⟨id, hid⟩)).objs.length := by
          intro j hj
          rw [admitOne_objs_length]
          exact hv j (List.mem_cons_of_mem id hj)
        have hhead : objStatus (pumpGo rest (avail - 1)
            (admitOne st id (st.objs.get ⟨id, hid⟩))) id = some .Downloading := by
          rw [pumpGo_objStatus_not_mem rest _ _ id hrest]
          exact admitOne_objStatus_self st hsome
        rw [downCountOn_cons, downCountOn_cons]
        rw [ih (avail - 1) _ hnd' hv']
        have hcnt : rest.countP (eligAt (admitOne st id (st.objs.get ⟨id, hid⟩)))
            = rest.countP (eligAt st) := by
          apply List.countP_congr
          intro x hx
          rw [eligAt_congr (hstat x (fun hh => hrest (hh ▸ hx)))]
        have hdc : downCountOn rest (admitOne st id (st.objs.get ⟨id, hid⟩))
            = downCountOn rest st :=
          downCountOn_congr (fun x hx => hstat x (fun hh => hrest (hh ▸ hx)))
        rw [hcnt, hdc, hhead]
        have hnotdown : ¬ (objStatus st id = some Status.Downloading) := by
          rw [show objStatus st id = some (st.objs.get ⟨id, hid⟩).status from by
            simp [objStatus, hsome]]
          intro hc
          exact Status.eligible_ne_downloading he (Option.some_injective _ hc)
        have hel : eligAt st id = true := eligAt_true_of st hsome he
        rw [if_pos rfl, if_neg hnotdown, List.countP_cons]
        simp only [hel, if_true]
        omega
      · rw [if_neg he]
        have hel : eligAt st id = false := eligAt_false_of st hsome he
        have hstat2 : objStatus (pumpGo rest avail st) id = objStatus st id :=
          pumpGo_objStatus_not_mem rest _ _ id hrest
        rw [downCountOn_cons, downCountOn_cons]
        rw [ih avail st hnd' (fun j hj => hv j (List.mem_cons_of_mem id hj))]
        rw [hstat2, List.countP_cons, hel]
        simp only [Bool.false_eq_true, if_false]
        omega

theorem pumpGo_work_conserving (ids : List Nat) :
    ∀ (avail : Nat) (st : Sched), ids.Nodup →
      (∀ j ∈ ids, j < st.objs.length) →
      (∃ x ∈ ids, eligAt (pumpGo ids avail st) x = true) →
      avail ≤ ids.countP (eligAt st) := by
  induction ids with
  | nil =>
    intro avail st _ _ hex
    rcases hex with ⟨x, hx, _⟩
    exact absurd hx (List.not_mem_nil x)
  | cons id rest ih =>
    intro avail st hnd hv hex
    have hid : id < st.objs.length := hv id (List.mem_cons_self id rest)
    have hsome : st.objs[id]? = some (st.objs.get ⟨id, hid⟩) :=
      List.getElem?_eq_getElem hid
    have hrest : id ∉ rest := (List.nodup_cons.mp hnd).1
    have hnd' : rest.Nodup := (List.nodup_cons.mp hnd).2
    by_cases ha : avail = 0
    · omega
    · rw [pumpGo, if_neg ha, hsome] at hex
      dsimp only at hex
      by_cases he : (st.objs.get ⟨id, hid⟩).status.eligible = true
      · rw [if_pos he] at hex
        rcases hex with ⟨x, hx, hxe⟩
        have hel : eligAt st id = true := eligAt_true_of st hsome he
        have hcc : (id :: rest).countP (eligAt st)
            = rest.countP (eligAt st) + 1 := by
          rw [List.countP_cons]
          simp [hel]
        rcases List.mem_cons.mp hx with rfl | hxr
        · have hdown : objStatus (pumpGo rest (avail - 1)
              (admitOne st x (st.objs.get ⟨x, hid⟩))) x = some .Downloading := by
            rw [pumpGo_objStatus_not_mem rest _ _ x hrest]
            exact admitOne_objStatus_self st hsome
          rw [show eligAt (pumpGo rest (avail - 1)
              (admitOne st x (st.objs.get ⟨x, hid⟩))) x = false from by
            unfold eligAt
            rw [hdown]
            rfl] at hxe
          cases hxe
        · have hv' : ∀ j ∈ rest,
              j < (admitOne st id (st.objs.get ⟨id, hid⟩)).objs.length := by
            intro j hj
            rw [admitOne_objs_length]
            exact hv j (List.mem_cons_of_mem id hj)
          have hle := ih (avail - 1) (admitOne st id (st.objs.get ⟨id, hid⟩))
            hnd' hv' ⟨x, hxr, hxe⟩
          have hcnt : rest.countP (eligAt (admitOne st id (st.objs.get ⟨id, hid⟩)))
              = rest.countP (eligAt st) := by
            apply List.countP_congr
            intro y hy
            rw [eligAt_congr (admitOne_objStatus_ne st id _
              (fun hh => hrest (hh ▸ hy)))]
          rw [hcnt] at hle
          omega
      · rw [if_neg he] at hex
        rcases hex with ⟨x, hx, hxe⟩
        have hel : eligAt st id = false := eligAt_false_of st hsome he
        have hcc : (id :: rest).countP (eligAt st) = rest.countP (eligAt st) := by
          rw [List.countP_cons]
          simp [hel]
        rcases List.mem_cons.mp hx with rfl | hxr
        · rw [show eligAt (pumpGo rest avail st) x = false from by
            rw [show eligAt (pumpGo rest avail st) x
              = eligAt st x from
              eligAt_congr (pumpGo_objStatus_not_mem rest _ _ x hrest)]
            exact hel] at hxe
          cases hxe
        · have hle := ih avail st hnd'
            (fun j hj => hv j (List.mem_cons_of_mem id hj)) ⟨x, hxr, hxe⟩
          omega

/-- C5: on every pump cycle, admission is strictly order-preserving and
work-conserving over the code's own slot computation: an item's status
becomes Downloading iff it was eligible (Queued, Paused, Error, or
Canceled) and fewer earlier display items were eligible than there
were free slots (so the earliest eligible index always wins a slot),
and if any eligible item remains after the pump then every free slot
was used (the Downloading count on the display list grew by exactly
the free-slot count). -/
theorem pump_admission_order_and_work (st : Sched)
    (hnd : st.display.Nodup)
    (hv : ∀ id ∈ st.display, id < st.objs.length) :
    (∀ (pre : List Nat) (id : Nat) (post : List Nat),
       st.display = pre ++ id :: post →
       objStatus (pump st) id
         = if eligAt st id = true
              ∧ pre.countP (eligAt st) < st.ceiling - activeCount st
           then some .Downloading else objStatus st id)
    ∧ ((∃ id ∈ st.display, eligAt (pump st) id = true) →
       downCount (pump st) = downCount st + (st.ceiling - activeCount st)) := by
  constructor
  · intro pre id post hsplit
    by_cases hca : st.ceiling ≤ activeCount st
    · rw [pump, if_pos hca]
      have h0 : st.ceiling - activeCount st = 0 := Nat.sub_eq_zero_of_le hca
      rw [h0]
      rw [if_neg (fun hc => Nat.not_lt_zero _ hc.2)]
    · rw [pump, if_neg hca, hsplit]
      exact pumpGo_char pre id post (st.ceiling - activeCount st) st
        (hsplit ▸ hnd) (hsplit ▸ hv)
  · intro hex
    by_cases hca : st.ceiling ≤ activeCount st
    · rw [pump, if_pos hca]
      have h0 : st.ceiling - activeCount st = 0 := Nat.sub_eq_zero_of_le hca
      omega
    · rw [pump, if_neg hca] at hex ⊢
      unfold downCount
      rw [(pumpGo_frame st.display (st.ceiling - activeCount st) st).1]
      rw [pumpGo_downCountOn st.display _ st hnd hv]
      have hle := pumpGo_work_conserving st.display _ st hnd hv hex
      omega

theorem admitOne_winv {st : Sched} {id : Nat} {it : Item}
    (h : st.objs[id]? = some it) (hW : WInv st) : WInv (admitOne st id it) := by
  have hid : id < st.objs.length := lt_length_of_getElem?_eq_some h
  have hkey : it.index = id := hW.kidx id it h
  constructor
  · intro id' it' h'
    simp only [admitOne] at h'
    by_cases hii : id' = id
    · subst hii
      rw [List.getElem?_set_self hid] at h'
      cases h'
      simp [hkey]
    · rw [List.getElem?_set_ne (fun hh => hii hh.symm)] at h'
      exact hW.kidx id' it' h'
  · intro kv hkv
    rw [admitOne_objs_length]
    simp only [admitOne] at hkv
    by_cases hf : (st.workers.find? (fun kv => kv.1 == it.index)).isSome = true
    · rw [if_pos hf] at hkv
      exact hW.wkeys kv hkv
    · rw [if_neg hf] at hkv
      rcases List.mem_append.mp hkv with hold | hnew
      · exact hW.wkeys kv hold
      · rcases List.mem_singleton.mp hnew with rfl
        simp [hkey, hid]
  · simp only [admitOne]
    by_cases hf : (st.workers.find? (fun kv => kv.1 == it.index)).isSome = true
    · rw [if_pos hf]
      exact hW.wnodup
    · rw [if_neg hf]
      rw [List.map_append]
      simp only [List.map_cons, List.map_nil]
      rw [List.nodup_append]
      refine ⟨hW.wnodup, List.nodup_singleton _, ?_⟩
      intro a ha hb
      rcases List.mem_singleton.mp hb with rfl
      rcases List.mem_map.mp ha with ⟨kv, hkvm, hkv1⟩
      have hnone : st.workers.find? (fun kv => kv.1 == it.index) = none :=
        Option.not_isSome_iff_eq_none.mp hf
      have := List.find?_eq_none.mp hnone kv hkvm
      simp only [beq_iff_eq] at this
      exact this (by rw [hkv1])
  · intro id' hd'
    by_cases hii : id' = id
    · subst hii
      simp only [admitOne]
      by_cases hf : (st.workers.find? (fun kv => kv.1 == it.index)).isSome = true
      · rw [if_pos hf]
        rcases Option.isSome_iff_exists.mp hf with ⟨kv, hkv⟩
        refine ⟨kv, List.mem_of_find?_eq_some hkv, ?_⟩
        have := List.find?_some hkv
        simp only [beq_iff_eq] at this
        rw [this, hkey]
      · rw [if_neg hf]
        exact ⟨(it.index, id'), List.mem_append_right _ (List.mem_singleton_self _),
          hkey⟩
    · rw [admitOne_objStatus_ne st id it hii] at hd'
      rcases hW.dworker id' hd' with ⟨kv, hkvm, hkv1⟩
      refine ⟨kv, ?_, hkv1⟩
      simp only [admitOne]
      by_cases hf : (st.workers.find? (fun kv => kv.1 == it.index)).isSome = true
      · rw [if_pos hf]
        exact hkvm
      · rw [if_neg hf]
        exact List.mem_append_left _ hkvm

theorem pumpGo_winv (ids : List Nat) :
    ∀ (avail : Nat) (st : Sched), WInv st → WInv (pumpGo ids avail st) := by
  induction ids with
  | nil =>
    intro avail st hW
    exact hW
  | cons id rest ih =>
    intro avail st hW
    rw [pumpGo]
    by_cases ha : avail = 0
    · rw [if_pos ha]
      exact hW
    · rw [if_neg ha]
      cases h : st.objs[id]? with
      | none =>
        dsimp only
        exact ih avail st hW
      | some it =>
        dsimp only
        by_cases he : it.status.eligible = true
        · rw [if_pos he]
          exact ih _ _ (admitOne_winv h hW)
        · rw [if_neg he]
          exact ih avail st hW

theorem downCount_le_activeCount (st : Sched) (hI : SchedInv st) :
    downCount st ≤ activeCount st := by
  have hd : downCount st = ((List.range st.objs.length).filter
      (fun id => decide (objStatus st id = some Status.Downloading))).length := by
    unfold downCount downCountOn
    rw [hI.disp, List.countP_eq_length_filter]
  have ha : activeCount st
      = ((st.workers.map Prod.fst).filter
          (fun id => decide (objStatus st id = some Status.Downloading))).length := by
    unfold activeCount
    rw [show (st.workers.countP
          (fun kv => decide (objStatus st kv.2 = some Status.Downloading)))
        = st.workers.countP
          (fun kv => decide (objStatus st kv.1 = some Status.Downloading)) from
      List.countP_congr (fun kv hkv => by rw [(hI.winv.wkeys kv hkv).1])]
    rw [← List.countP_eq_length_filter, List.countP_map]
    rfl
  rw [hd, ha]
  apply List.Subperm.length_le
  apply List.subperm_of_subset
  · exact (List.nodup_range st.objs.length).filter _
  · intro a hain
    rcases List.mem_filter.mp hain with ⟨_, hq⟩
    rcases hI.winv.dworker a (of_decide_eq_true hq) with ⟨kv, hkvmem, hkv1⟩
    refine List.mem_filter.mpr ⟨?_, hq⟩
    rw [← hkv1]
    exact List.mem_map_of_mem Prod.fst hkvmem

theorem pump_schedInv (st : Sched) (hI : SchedInv st) : SchedInv (pump st) := by
  by_cases hca : st.ceiling ≤ activeCount st
  · rw [pump, if_pos hca]
    exact hI
  · rw [pump, if_neg hca]
    have hfr := pumpGo_frame st.display (st.ceiling - activeCount st) st
    have hnd : st.display.Nodup := by
      rw [hI.disp]
      exact List.nodup_range _
    have hv : ∀ j ∈ st.display, j < st.objs.length := by
      intro j hj
      rw [hI.disp] at hj
      exact List.mem_range.mp hj
    constructor
    · exact pumpGo_winv _ _ _ hI.winv
    · rw [hfr.1, hfr.2.2]
      exact hI.disp
    · unfold downCount
      rw [hfr.1, hfr.2.1]
      rw [pumpGo_downCountOn st.display _ st hnd hv]
      have h1 : downCountOn st.display st ≤ activeCount st :=
        downCount_le_activeCount st hI
      omega

theorem addItem_schedInv (st : Sched) (hI : SchedInv st) :
    SchedInv (addItem st) := by
  have hlen : st.display.length = st.objs.length := by
    rw [hI.disp]
    exact List.length_range _
  have hnewlen : (addItem st).objs.length = st.objs.length + 1 := by
    simp [addItem]
  have hstat : ∀ j : Nat, j < st.objs.length →
      objStatus (addItem st) j = objStatus st j := by
    intro j hj
    simp only [addItem, objStatus]
    rw [List.getElem?_append_left hj]
  have hstatnew : objStatus (addItem st) st.objs.length = some .Queued := by
    simp only [addItem, objStatus]
    rw [List.getElem?_append_right (le_refl _)]
    simp
  constructor
  · constructor
    · intro id it h
      simp only [addItem] at h
      by_cases hlt : id < st.objs.length
      · rw [List.getElem?_append_left hlt] at h
        exact hI.winv.kidx id it h
      · have hle : st.objs.length ≤ id := Nat.le_of_not_lt hlt
        rw [List.getElem?_append_right hle] at h
        rcases Nat.eq_or_lt_of_le hle with heq | hgt
        · rw [← heq, Nat.sub_self] at h
          simp only [List.getElem?_cons_zero] at h
          cases h
          simp [hlen, heq]
        · rw [List.getElem?_eq_none (by simp; omega)] at h
          cases h
    · intro kv hkv
      have hold := hI.winv.wkeys kv hkv
      rw [hnewlen]
      exact ⟨hold.1, Nat.lt_succ_of_lt hold.2⟩
    · exact hI.winv.wnodup
    · intro id hd
      by_cases hlt : id < st.objs.length
      · rw [hstat id hlt] at hd
        exact hI.winv.dworker id hd
      · have hle : st.objs.length ≤ id := Nat.le_of_not_lt hlt
        rcases Nat.eq_or_lt_of_le hle with heq | hgt
        · rw [← heq, hstatnew] at hd
          cases hd
        · rw [show objStatus (addItem st) id = none from by
            simp only [addItem, objStatus]
            rw [List.getElem?_eq_none (by simp; omega)]
            rfl] at hd
          cases hd
  · show st.display ++ [st.objs.length] = List.range (addItem st).objs.length
    rw [hnewlen, hI.disp]
    exact (List.range_succ st.objs.length).symm
  · show downCountOn (addItem st).display (addItem st) ≤ (addItem st).ceiling
    have hdisp : (addItem st).display = st.display ++ [st.objs.length] := rfl
    rw [hdisp]
    unfold downCountOn
    rw [List.countP_append]
    have h1 : st.display.countP
        (fun id => decide (objStatus (addItem st) id = some Status.Downloading))
        = st.display.countP
          (fun id => decide (objStatus st id = some Status.Downloading)) := by
      apply List.countP_congr
      intro j hj
      have hjlt : j < st.objs.length := by
        rw [hI.disp] at hj
        exact List.mem_range.mp hj
      rw [hstat j hjlt]
    rw [h1]
    have h2 : ([st.objs.length].countP
        (fun id => decide (objStatus (addItem st) id = some Status.Downloading))) = 0 := by
      simp [List.countP_cons, hstatnew]
    rw [h2]
    have := hI.bound
    unfold downCount downCountOn at this
    simpa using this

theorem setObjStatus_schedInv {st : Sched} {id : Nat} {s : Status}
    (hs : s ≠ Status.Downloading) (hI : SchedInv st) :
    SchedInv (setObjStatus st id s) := by
  rw [setObjStatus]
  cases h : st.objs[id]? with
  | none => exact hI
  | some it =>
    dsimp only
    have hid : id < st.objs.length := lt_length_of_getElem?_eq_some h
    have hstat : ∀ x : Nat, x ≠ id →
        objStatus { st with objs := st.objs.set id { it with status := s } } x
          = objStatus st x := by
      intro x hx
      simp only [objStatus]
      rw [List.getElem?_set_ne (fun hh => hx hh.symm)]
    have hstatself :
        objStatus { st with objs := st.objs.set id { it with status := s } } id
          = some s := by
      simp [objStatus, List.getElem?_set_self hid]
    constructor
    · constructor
      · intro id' it' h'
        simp only at h'
        by_cases hii : id' = id
        · subst hii
          rw [List.getElem?_set_self hid] at h'
          cases h'
          exact hI.winv.kidx id' it h
        · rw [List.getElem?_set_ne (fun hh => hii hh.symm)] at h'
          exact hI.winv.kidx id' it' h'
      · intro kv hkv
        have hold := hI.winv.wkeys kv hkv
        simpa using hold
      · exact hI.winv.wnodup
      · intro id' hd'
        by_cases hii : id' = id
        · subst hii
          rw [hstatself] at hd'
          cases hd'
          exact absurd rfl hs
        · rw [hstat id' hii] at hd'
          exact hI.winv.dworker id' hd'
    · simpa using hI.disp
    · show downCountOn st.display _ ≤ st.ceiling
      have hb := hI.bound
      unfold downCount at hb
      refine le_trans ?_ hb
      unfold downCountOn
      apply List.countP_mono_left
      intro x hx hq
      by_cases hii : x = id
      · subst hii
        rw [hstatself] at hq
        simp only [decide_eq_true_eq] at hq
        cases hq
        exact absurd rfl hs
      · rw [hstat x hii] at hq
        exact hq

theorem controlGo_schedInv (s : Status) (hs : s ≠ Status.Downloading)
    (rows : List Nat) :
    ∀ st : Sched, SchedInv st → SchedInv (controlGo s rows st) := by
  induction rows with
  | nil =>
    intro st hI
    exact hI
  | cons row rs ih =>
    intro st hI
    rw [controlGo]
    apply ih
    by_cases hf : ((st.workers.find? (fun kv => kv.1 == row)).isSome) = true
    · rw [if_pos hf]
      cases hdr : st.display[row]? with
      | none => exact hI
      | some id =>
        dsimp only
        exact setObjStatus_schedInv hs hI
    · rw [if_neg hf]
      exact hI

theorem safeSeq_schedInv (ops : List Op) :
    ∀ st : Sched, SchedInv st → SafeSeq st ops → SchedInv (applyOps ops st) := by
  induction ops with
  | nil =>
    intro st h _
    exact h
  | cons o rest ih =>
    intro st hI hsafe
    rcases hsafe with _ | ⟨hop, hrest⟩
    refine ih _ ?_ hrest
    cases o with
    | add => exact addItem_schedInv st hI
    | pump => exact pump_schedInv st hI
    | pause rows => exact controlGo_schedInv _ (by decide) rows st hI
    | cancel rows => exact controlGo_schedInv _ (by decide) rows st hI
    | resume rows => exact absurd hop not_false
    | remove rows => exact absurd hop not_false
    | setCeiling n =>
      have hcn : st.ceiling ≤ n := hop
      apply pump_schedInv
      exact ⟨⟨hI.winv.kidx, hI.winv.wkeys, hI.winv.wnodup, hI.winv.dworker⟩,
        hI.disp, le_trans hI.bound hcn⟩

theorem mkInit_schedInv (c : Nat) : SchedInv (mkInit c) := by
  constructor
  · constructor
    · intro id it h
      simp [mkInit] at h
    · intro kv hkv
      simp [mkInit] at hkv
    · simp [mkInit]
    · intro id hd
      simp [mkInit, objStatus] at hd
  · rfl
  · simp [downCount, downCountOn, mkInit]

/-- C1 (amended): starting from the empty scheduler with any ceiling,
for every sequence of add, start/pump, pause, and cancel operations
and ceiling increases, the number of items with status Downloading
never exceeds the configured ceiling.  (Resume, remove, and ceiling
decreases are excluded: each can push the count above the ceiling, as
the counterexample shows.) -/
theorem downloading_bounded_no_resume_remove_decrease (c : Nat) (ops : List Op)
    (hsafe : SafeSeq (mkInit c) ops) :
    downCount (applyOps ops (mkInit c)) ≤ (applyOps ops (mkInit c)).ceiling :=
  (safeSeq_schedInv ops (mkInit c) (mkInit_schedInv c) hsafe).bound

/-- Witness for `downloading_bounded_no_resume_remove_decrease` on a
concrete safe operation sequence. -/
theorem downloading_bounded_witness :
    SafeSeq (mkInit 2) [Op.add, Op.add, Op.pump]
    ∧ downCount (applyOps [Op.add, Op.add, Op.pump] (mkInit 2))
        ≤ (applyOps [Op.add, Op.add, Op.pump] (mkInit 2)).ceiling :=
  ⟨SafeSeq.cons trivial (SafeSeq.cons trivial (SafeSeq.cons trivial (SafeSeq.nil _))),
   downloading_bounded_no_resume_remove_decrease 2 [Op.add, Op.add, Op.pump]
     (SafeSeq.cons trivial (SafeSeq.cons trivial (SafeSeq.cons trivial (SafeSeq.nil _))))⟩

/-- C1 counterexample: three operation sequences from the initial
state after which the count of Downloading items exceeds the ceiling:
lowering the ceiling under two running items (2 > 1); pausing two
items and resuming both with ceiling 1 (`resume_selected` sets
Downloading without any ceiling check, 2 > 1); and two removals whose
second pop hits a stale worker key, so a later pump undercounts active
workers and over-admits (3 > 2). -/
theorem downloading_exceeds_ceiling_cex :
    (downCount (applyOps [Op.add, Op.add, Op.setCeiling 2, Op.setCeiling 1] (mkInit 3)) = 2
     ∧ (applyOps [Op.add, Op.add, Op.setCeiling 2, Op.setCeiling 1] (mkInit 3)).ceiling = 1)
    ∧ (downCount (applyOps [Op.add, Op.add, Op.setCeiling 2, Op.pause [0, 1],
        Op.setCeiling 1, Op.resume [0, 1]] (mkInit 3)) = 2
       ∧ (applyOps [Op.add, Op.add, Op.setCeiling 2, Op.pause [0, 1],
        Op.setCeiling 1, Op.resume [0, 1]] (mkInit 3)).ceiling = 1)
    ∧ (downCount (applyOps [Op.add, Op.add, Op.add, Op.setCeiling 2, Op.remove [0],
        Op.remove [1], Op.add, Op.add, Op.pump] (mkInit 3)) = 3
       ∧ (applyOps [Op.add, Op.add, Op.add, Op.setCeiling 2, Op.remove [0],
        Op.remove [1], Op.add, Op.add, Op.pump] (mkInit 3)).ceiling = 2) := by
  decide

theorem keepNotIn_append {α : Type} (rows : List Nat) (A : List α) :
    ∀ (i : Nat) (B : List α),
      keepNotIn rows i (A ++ B)
        = keepNotIn rows i A ++ keepNotIn rows (i + A.length) B := by
  induction A with
  | nil =>
    intro i B
    simp [keepNotIn]
  | cons a A' ih =>
    intro i B
    have hlen : i + (a :: A').length = (i + 1) + A'.length := by
      simp only [List.length_cons]
      omega
    rw [hlen, List.cons_append]
    by_cases hm : i ∈ rows
    · rw [keepNotIn, if_pos hm, ih (i + 1) B,
        show keepNotIn rows i (a :: A') = keepNotIn rows (i + 1) A' from by
          rw [keepNotIn, if_pos hm]]
    · rw [keepNotIn, if_neg hm, ih (i + 1) B,
        show keepNotIn rows i (a :: A') = a :: keepNotIn rows (i + 1) A' from by
          rw [keepNotIn, if_neg hm]]
      rw [List.cons_append]

theorem keepNotIn_of_lt {α : Type} (rows : List Nat) (B : List α) :
    ∀ i : Nat, (∀ x ∈ rows, x < i) → keepNotIn rows i B = B := by
  induction B with
  | nil =>
    intro i _
    rfl
  | cons b B' ih =>
    intro i hlt
    rw [keepNotIn, if_neg (fun hm => absurd (hlt i hm) (lt_irrefl i))]
    rw [ih (i + 1) (fun x hx => Nat.lt_succ_of_lt (hlt x hx))]

theorem keepNotIn_cons_out {α : Type} (r : Nat) (rows : List Nat) (l : List α) :
    ∀ i : Nat, (r < i ∨ i + l.length ≤ r) →
      keepNotIn (r :: rows) i l = keepNotIn rows i l := by
  induction l with
  | nil =>
    intro i _
    rfl
  | cons a l' ih =>
    intro i hout
    have hir : i ≠ r := by
      rcases hout with h | h
      · omega
      · simp only [List.length_cons] at h
        omega
    have hnext : r < i + 1 ∨ (i + 1) + l'.length ≤ r := by
      rcases hout with h | h
      · exact Or.inl (by omega)
      · simp only [List.length_cons] at h
        exact Or.inr (by omega)
    by_cases hm : i ∈ rows
    · rw [keepNotIn, if_pos (List.mem_cons_of_mem r hm), keepNotIn, if_pos hm,
        ih (i + 1) hnext]
    · rw [keepNotIn, if_neg (by
        intro hc
        rcases List.mem_cons.mp hc with hh | hh
        · exact hir hh
        · exact hm hh), keepNotIn, if_neg hm, ih (i + 1) hnext]

theorem keepNotIn_congr_mem {α : Type} {rows₁ rows₂ : List Nat}
    (h : ∀ x : Nat, x ∈ rows₁ ↔ x ∈ rows₂) (l : List α) :
    ∀ i : Nat, keepNotIn rows₁ i l = keepNotIn rows₂ i l := by
  induction l with
  | nil =>
    intro i
    rfl
  | cons a l' ih =>
    intro i
    by_cases hm : i ∈ rows₁
    · rw [keepNotIn, if_pos hm, keepNotIn, if_pos ((h i).mp hm), ih (i + 1)]
    · rw [keepNotIn, if_neg hm, keepNotIn, if_neg (fun hc => hm ((h i).mpr hc)),
        ih (i + 1)]

theorem keepNotIn_map {α β : Type} (f : α → β) (rows : List Nat) (l : List α) :
    ∀ i : Nat, keepNotIn rows i (l.map f) = (keepNotIn rows i l).map f := by
  induction l with
  | nil =>
    intro i
    rfl
  | cons a l' ih =>
    intro i
    by_cases hm : i ∈ rows
    · rw [List.map_cons, keepNotIn, if_pos hm, keepNotIn, if_pos hm, ih (i + 1)]
    · rw [List.map_cons, keepNotIn, if_neg hm, keepNotIn, if_neg hm,
        List.map_cons, ih (i + 1)]

theorem keepNotIn_sublist {α : Type} (rows : List Nat) (l : List α) :
    ∀ i : Nat, List.Sublist (keepNotIn rows i l) l := by
  induction l with
  | nil =>
    intro i
    exact List.Sublist.refl []
  | cons a l' ih =>
    intro i
    by_cases hm : i ∈ rows
    · rw [keepNotIn, if_pos hm]
      exact (ih (i + 1)).cons a
    · rw [keepNotIn, if_neg hm]
      exact (ih (i + 1)).cons₂ a

theorem keepNotIn_eraseIdx {α : Type} (r : Nat) (rows : List Nat)
    (hlt : ∀ x ∈ rows, x < r) (l : List α) :
    keepNotIn rows 0 (l.eraseIdx r) = keepNotIn (r :: rows) 0 l := by
  by_cases hr : r < l.length
  · rw [List.eraseIdx_eq_take_drop_succ]
    have htklen : (l.take r).length = r := by
      rw [List.length_take]
      omega
    rw [keepNotIn_append rows (l.take r) 0 (l.drop (r + 1))]
    rw [show (0 : Nat) + (l.take r).length = r from by rw [htklen]; omega]
    rw [keepNotIn_of_lt rows (l.drop (r + 1)) r hlt]
    conv_rhs => rw [← List.take_append_drop r l]
    rw [keepNotIn_append (r :: rows) (l.take r) 0 (l.drop r)]
    rw [show (0 : Nat) + (l.take r).length = r from by rw [htklen]; omega]
    rw [keepNotIn_cons_out r rows (l.take r) 0 (Or.inr (by rw [htklen]; omega))]
    congr 1
    rw [List.drop_eq_getElem_cons hr]
    rw [keepNotIn, if_pos (List.mem_cons_self r rows)]
    rw [keepNotIn_of_lt (r :: rows) (l.drop (r + 1)) (r + 1) (by
      intro x hx
      rcases List.mem_cons.mp hx with rfl | hh
      · omega
      · exact Nat.lt_succ_of_lt (hlt x hh))]
  · rw [List.eraseIdx_of_length_le (Nat.le_of_not_lt hr)]
    rw [keepNotIn_cons_out r rows l 0 (Or.inr (by omega))]

theorem removeGo_objs_ceiling (rs : List Nat) :
    ∀ st : Sched, (removeGo rs st).objs = st.objs
      ∧ (removeGo rs st).ceiling = st.ceiling := by
  induction rs with
  | nil =>
    intro st
    exact ⟨rfl, rfl⟩
  | cons r rs' ih =>
    intro st
    rw [removeGo]
    exact ih _

theorem removeGo_workers (rs : List Nat) :
    ∀ st : Sched, (removeGo rs st).workers
      = st.workers.filter (fun kv => decide (kv.1 ∉ rs)) := by
  induction rs with
  | nil =>
    intro st
    simp [removeGo]
  | cons r rs' ih =>
    intro st
    rw [removeGo, ih, List.filter_filter]
    apply List.filter_congr
    intro kv _
    by_cases h1 : kv.1 = r <;> by_cases h2 : kv.1 ∈ rs' <;>
      simp [h1, h2, List.mem_cons]

theorem removeGo_display (rs : List Nat) (hp : rs.Pairwise (· > ·)) :
    ∀ st : Sched, (removeGo rs st).display = keepNotIn rs 0 st.display := by
  induction rs with
  | nil =>
    intro st
    rw [keepNotIn_of_lt [] st.display 0 (by intro x hx; cases hx)]
    rfl
  | cons r rs' ih =>
    intro st
    have hlt : ∀ x ∈ rs', x < r := by
      intro x hx
      exact (List.pairwise_cons.mp hp).1 x hx
    rw [removeGo, ih (List.pairwise_cons.mp hp).2]
    exact keepNotIn_eraseIdx r rs' hlt st.display

theorem insertionSort_desc_pairwise (rows : List Nat) (hnd : rows.Nodup) :
    (List.insertionSort (· ≥ ·) rows).Pairwise (· > ·) := by
  have hs : List.Sorted (· ≥ ·) (List.insertionSort (· ≥ ·) rows) :=
    List.sorted_insertionSort (· ≥ ·) rows
  have hnd2 : (List.insertionSort (· ≥ ·) rows).Nodup :=
    (List.perm_insertionSort (· ≥ ·) rows).nodup_iff.mpr hnd
  exact (List.Pairwise.and hs hnd2).imp
    (fun hab => lt_of_le_of_ne hab.1 hab.2.symm)

theorem reindexGo_getElem?_not_mem (disp : List Nat) :
    ∀ (k : Nat) (objs : List Item) (x : Nat), x ∉ disp →
      (reindexGo k disp objs)[x]? = objs[x]? := by
  induction disp with
  | nil =>
    intro k objs x _
    rfl
  | cons id rest ih =>
    intro k objs x hx
    have hxid : id ≠ x := fun hh => hx (hh ▸ List.mem_cons_self id rest)
    have hxrest : x ∉ rest := fun hh => hx (List.mem_cons_of_mem id hh)
    rw [reindexGo]
    cases h : objs[id]? with
    | none =>
      dsimp only
      exact ih (k + 1) objs x hxrest
    | some it =>
      dsimp only
      rw [ih (k + 1) _ x hxrest]
      exact List.getElem?_set_ne hxid

theorem reindexGo_getElem?_at (disp : List Nat) :
    ∀ (k : Nat) (objs : List Item), disp.Nodup →
      ∀ (j : Nat) (hj : j < disp.length),
        (reindexGo k disp objs)[disp.get ⟨j, hj⟩]?
          = (objs[disp.get ⟨j, hj⟩]?).map (fun it => { it with index := k + j }) := by
  induction disp with
  | nil =>
    intro k objs _ j hj
    exact absurd hj (Nat.not_lt_zero j)
  | cons id rest ih =>
    intro k objs hnd j hj
    have hidrest : id ∉ rest := (List.nodup_cons.mp hnd).1
    have hnd' : rest.Nodup := (List.nodup_cons.mp hnd).2
    cases j with
    | zero =>
      show (reindexGo k (id :: rest) objs)[id]? = (objs[id]?).map _
      rw [reindexGo]
      cases h : objs[id]? with
      | none =>
        dsimp only
        rw [reindexGo_getElem?_not_mem rest (k + 1) objs id hidrest, h]
        rfl
      | some it =>
        dsimp only
        rw [reindexGo_getElem?_not_mem rest (k + 1) _ id hidrest]
        rw [List.getElem?_set_self (lt_length_of_getElem?_eq_some h)]
        simp
    | succ j' =>
      show (reindexGo k (id :: rest) objs)[rest.get ⟨j', _⟩]?
        = (objs[rest.get ⟨j', _⟩]?).map _
      rw [reindexGo]
      cases h : objs[id]? with
      | none =>
        dsimp only
        rw [ih (k + 1) objs hnd' j' (by
          simpa using Nat.lt_of_succ_lt_succ hj)]
        congr 1
        funext it
        congr 1
        omega
      | some it =>
        dsimp only
        have hne : id ≠ rest.get ⟨j', by simpa using Nat.lt_of_succ_lt_succ hj⟩ := by
          intro hh
          exact hidrest (hh ▸ List.get_mem rest _ _)
        rw [ih (k + 1) _ hnd' j' (by simpa using Nat.lt_of_succ_lt_succ hj)]
        rw [List.getElem?_set_ne hne]
        congr 1
        funext it'
        congr 1
        omega

theorem map_deref_reindexed (dl : List Nat) :
    ∀ (k : Nat) (objs2 objs0 : List Item),
      (∀ (j : Nat) (hj : j < dl.length),
        objs2[dl.get ⟨j, hj⟩]? = (objs0[dl.get ⟨j, hj⟩]?).map
          (fun it => { it with index := k + j })) →
      (∀ id ∈ dl, id < objs0.length) →
      dl.map (fun id => (objs2[id]?).getD default)
        = reindexSpec k (dl.map (fun id => (objs0[id]?).getD default)) := by
  induction dl with
  | nil =>
    intro k _ _ _ _
    rfl
  | cons id rest ih =>
    intro k objs2 objs0 hprop hv
    have h0 : objs2[id]? = (objs0[id]?).map (fun it => { it with index := k + 0 }) :=
      hprop 0 (Nat.succ_pos rest.length)
    have hvid : id < objs0.length := hv id (List.mem_cons_self id rest)
    have hsome : objs0[id]? = some (objs0.get ⟨id, hvid⟩) :=
      List.getElem?_eq_getElem hvid
    rw [List.map_cons, List.map_cons, reindexSpec]
    congr 1
    · show (objs2[id]?).getD default = _
      rw [h0, hsome]
      simp
    · refine ih (k + 1) objs2 objs0 ?_ (fun x hx => hv x (List.mem_cons_of_mem id hx))
      intro j hj
      have hstep := hprop (j + 1) (Nat.succ_lt_succ hj)
      rw [show k + (j + 1) = (k + 1) + j from by omega] at hstep
      exact hstep

/-- C4 (amended): after remove(rows), the removed rows are gone and
the remaining items keep their order with `index` fields reassigned
consecutively from 0 (`reindexSpec 0` of the surviving items), but the
task map is only filtered: entries under removed row keys are popped
and every surviving entry keeps its old key — task-index associations
are NOT rebound to the new indices. -/
theorem remove_reindexes_keeps_stale_keys (rows : List Nat) (st : Sched)
    (hrows : rows.Nodup) (hnd : st.display.Nodup)
    (hv : ∀ id ∈ st.display, id < st.objs.length) :
    (removeRows rows st).display = keepNotIn rows 0 st.display
    ∧ (removeRows rows st).workers
        = st.workers.filter (fun kv => decide (kv.1 ∉ rows))
    ∧ itemsOf (removeRows rows st)
        = reindexSpec 0 (keepNotIn rows 0 (itemsOf st)) := by
  have hpair := insertionSort_desc_pairwise rows hrows
  have hmem : ∀ x : Nat, x ∈ List.insertionSort (· ≥ ·) rows ↔ x ∈ rows :=
    fun x => (List.perm_insertionSort (· ≥ ·) rows).mem_iff
  have hd1 : (removeRows rows st).display = keepNotIn rows 0 st.display := by
    show (removeGo (List.insertionSort (· ≥ ·) rows) st).display = _
    rw [removeGo_display _ hpair st]
    exact keepNotIn_congr_mem hmem st.display 0
  have hw1 : (removeRows rows st).workers
      = st.workers.filter (fun kv => decide (kv.1 ∉ rows)) := by
    show (removeGo (List.insertionSort (· ≥ ·) rows) st).workers = _
    rw [removeGo_workers _ st]
    apply List.filter_congr
    intro kv _
    by_cases h2 : kv.1 ∈ rows
    · simp [h2, (hmem kv.1).mpr h2]
    · simp [h2, fun hc => h2 ((hmem kv.1).mp hc)]
  have hobjs : (removeRows rows st).objs
      = reindexGo 0 (keepNotIn rows 0 st.display) st.objs := by
    show reindexGo 0 (removeGo (List.insertionSort (· ≥ ·) rows) st).display
        (removeGo (List.insertionSort (· ≥ ·) rows) st).objs = _
    rw [(removeGo_objs_ceiling _ _).1, removeGo_display _ hpair st,
      keepNotIn_congr_mem hmem st.display 0]
  have hsub : List.Sublist (keepNotIn rows 0 st.display) st.display :=
    keepNotIn_sublist rows st.display 0
  have hnd1 : (keepNotIn rows 0 st.display).Nodup := hsub.nodup hnd
  have hv1 : ∀ id ∈ keepNotIn rows 0 st.display, id < st.objs.length :=
    fun id hid => hv id (hsub.subset hid)
  refine ⟨hd1, hw1, ?_⟩
  have hstep1 : itemsOf (removeRows rows st)
      = (keepNotIn rows 0 st.display).map
          (fun id =>
            ((reindexGo 0 (keepNotIn rows 0 st.display) st.objs)[id]?).getD default) := by
    unfold itemsOf
    rw [hd1, hobjs]
  rw [hstep1]
  rw [map_deref_reindexed (keepNotIn rows 0 st.display) 0
    (reindexGo 0 (keepNotIn rows 0 st.display) st.objs) st.objs
    (reindexGo_getElem?_at (keepNotIn rows 0 st.display) 0 st.objs hnd1) hv1]
  congr 1
  unfold itemsOf
  rw [keepNotIn_map]

/-- C9: the progress and status handlers index `self.items` with the
event's carried index and no bounds check: the lookup succeeds exactly
when the index is below the current collection length (an out-of-range
index raises, modelled as `none`); and after `remove_selected`
shrinks a two-item collection, an event bearing the stale index 1
makes the lookup fail. -/
theorem handlers_unguarded_index (st : Sched) (i d : Nat) (t : Int) (s : Status)
    (hv : ∀ id ∈ st.display, id < st.objs.length) :
    ((onProgress st i d t).isSome ↔ i < st.display.length)
    ∧ ((onStatus st i s).isSome ↔ i < st.display.length)
    ∧ (st.display.length = 2 → onProgress (removeRows [0] st) 1 d t = none) := by
  refine ⟨⟨?_, ?_⟩, ⟨?_, ?_⟩, ?_⟩
  · intro h
    by_contra hc
    rw [onProgress, List.getElem?_eq_none (Nat.le_of_not_lt hc)] at h
    simp at h
  · intro hlt
    have hsome : st.display[i]? = some (st.display.get ⟨i, hlt⟩) :=
      List.getElem?_eq_getElem hlt
    have hvid : st.display.get ⟨i, hlt⟩ < st.objs.length :=
      hv _ (List.get_mem _ _ _)
    have hsome2 : st.objs[st.display.get ⟨i, hlt⟩]?
        = some (st.objs.get ⟨_, hvid⟩) := List.getElem?_eq_getElem hvid
    rw [onProgress, hsome]
    dsimp only
    rw [hsome2]
    rfl
  · intro h
    by_contra hc
    rw [onStatus, List.getElem?_eq_none (Nat.le_of_not_lt hc)] at h
    simp at h
  · intro hlt
    have hsome : st.display[i]? = some (st.display.get ⟨i, hlt⟩) :=
      List.getElem?_eq_getElem hlt
    have hvid : st.display.get ⟨i, hlt⟩ < st.objs.length :=
      hv _ (List.get_mem _ _ _)
    have hsome2 : st.objs[st.display.get ⟨i, hlt⟩]?
        = some (st.objs.get ⟨_, hvid⟩) := List.getElem?_eq_getElem hvid
    rw [onStatus, hsome]
    dsimp only
    rw [hsome2]
    rfl
  · intro hlen2
    have hd : (removeRows [0] st).display = st.display.eraseIdx 0 := by
      show (removeGo (List.insertionSort (· ≥ ·) [0]) st).display = _
      rw [show List.insertionSort (· ≥ ·) [0] = [0] from rfl]
      rw [removeGo]
      rfl
    rw [onProgress, hd, List.getElem?_eq_none (by
      rw [List.length_eraseIdx]
      simp [hlen2])]

/-- Witness for `pump_admission_order_and_work` at the specification's
example state: four eligible items and a ceiling of two. -/
theorem pump_admission_witness :
    (fourQueuedState.display.Nodup
     ∧ ∀ id ∈ fourQueuedState.display, id < fourQueuedState.objs.length)
    ∧ ((∀ (pre : List Nat) (id : Nat) (post : List Nat),
         fourQueuedState.display = pre ++ id :: post →
         objStatus (pump fourQueuedState) id
           = if eligAt fourQueuedState id = true
                ∧ pre.countP (eligAt fourQueuedState)
                  < fourQueuedState.ceiling - activeCount fourQueuedState
             then some .Downloading else objStatus fourQueuedState id)
       ∧ ((∃ id ∈ fourQueuedState.display,
            eligAt (pump fourQueuedState) id = true) →
          downCount (pump fourQueuedState)
            = downCount fourQueuedState
              + (fourQueuedState.ceiling - activeCount fourQueuedState))) :=
  ⟨⟨by decide, by decide⟩,
   pump_admission_order_and_work fourQueuedState (by decide) (by decide)⟩

/-- C4 counterexample: with two running items and workers keyed 0 and
1, removing row 0 leaves the surviving item at new index 0 while its
task remains under key 1, so the task map no longer associates the
surviving task under its item's new index. -/
theorem remove_does_not_rebind_worker_keys :
    taskMapRebound removeCexState = true
    ∧ taskMapRebound (removeRows [0] removeCexState) = false
    ∧ (removeRows [0] removeCexState).workers = [(1, 1)]
    ∧ (removeRows [0] removeCexState).display = [1]
    ∧ itemsOf (removeRows [0] removeCexState) = [⟨0, .Downloading, none, 0⟩] := by
  decide

/-- Witness for `remove_reindexes_keeps_stale_keys` on the concrete
two-item state. -/
theorem remove_reindexes_keeps_stale_keys_witness :
    (([0] : List Nat).Nodup ∧ removeCexState.display.Nodup
     ∧ ∀ id ∈ removeCexState.display, id < removeCexState.objs.length)
    ∧ ((removeRows [0] removeCexState).display
        = keepNotIn [0] 0 removeCexState.display
       ∧ (removeRows [0] removeCexState).workers
           = removeCexState.workers.filter (fun kv => decide (kv.1 ∉ ([0] : List Nat)))
       ∧ itemsOf (removeRows [0] removeCexState)
           = reindexSpec 0 (keepNotIn [0] 0 (itemsOf removeCexState))) :=
  ⟨⟨by decide, by decide, by decide⟩,
   remove_reindexes_keeps_stale_keys [0] removeCexState (by decide) (by decide)
     (by decide)⟩

/-- Witness for `handlers_unguarded_index` on the concrete two-item
state. -/
theorem handlers_unguarded_index_witness :
    (∀ id ∈ removeCexState.display, id < removeCexState.objs.length)
    ∧ (((onProgress removeCexState 0 5 (-1)).isSome
          ↔ 0 < removeCexState.display.length)
       ∧ ((onStatus removeCexState 0 Status.Done).isSome
          ↔ 0 < removeCexState.display.length)
       ∧ (removeCexState.display.length = 2 →
          onProgress (removeRows [0] removeCexState) 1 5 (-1) = none)) :=
  ⟨by decide,
   handlers_unguarded_index removeCexState 0 5 (-1) Status.Done (by decide)⟩
